import Mathlib

/-!
Shallow embedding of the incremental log-exploration engine (src/src/engine.rs,
src/src/base.rs) of the log-tags repository, together with theorems checking the
natural-language specification against it.

Modelling conventions:
* Rust `String` values are byte sequences (`List Nat`); Rust string comparison
  is byte-lexicographic, modelled by `strCmp`.
* `usize` is `Nat`; `usize` subtraction in the source never underflows on the
  states the theorems speak about, and is modelled by truncated `Nat`
  subtraction.
* External crates are modelled through their interfaces: the `regex` crate as a
  function from a line to an optional capture of group 1, the `rlua` runtime as
  an opaque deterministic evaluator, `ethbloom` through abstract `BloomOps`
  (instantiated for execution with the exact-set bloom `listBloom`, which has no
  false positives), `bit_set::BitSet` as `Finset Nat`, and `std::collections::
  HashMap` as an association list (`MapL`) plus an explicit iteration-order
  parameter where iteration order is observable (`file_to_tags`).
* A Rust panic (`panic!`, `unwrap` on `None`, `HashMap` indexing with a missing
  key, out-of-bounds slicing, `unimplemented!`) is the error value
  `Err.panicked`; it is distinct from errors surfaced through `Result`.
* The statistics sink is omitted: the engine is modelled in its default
  (non-debug) mode, where `Stats` is a no-op.
* The infinite batch loop of `Engine::take` is modelled with explicit fuel
  (`Err.outOfFuel` when exhausted); the termination theorem shows the fuel
  chosen in `Engine.take` is never exhausted.
-/

namespace LogTags

/-- Rust `String`, as its UTF-8 byte sequence. -/
abbrev Str := List Nat

/-- A `HashMap<usize-keyed id, α>`, as an association list in insertion order. -/
abbrev MapL (α : Type) := List (Nat × α)

/-- Lookup, `HashMap::get`. -/
def getM {α : Type} : MapL α → Nat → Option α
  | [], _ => none
  | kv :: rest, k => if kv.1 == k then some kv.2 else getM rest k

/-- Insert-or-replace, `HashMap::insert` (replaces the binding in place when
the key is present, appends otherwise). -/
def insertM {α : Type} : MapL α → Nat → α → MapL α
  | [], k, v => [(k, v)]
  | kv :: rest, k, v => if kv.1 == k then (k, v) :: rest else kv :: insertM rest k v

/-- `base::Interval`, a closed-open interval over `usize`. -/
structure Interval where
  lo : Nat
  hi : Nat
deriving DecidableEq, Repr

/-- `Interval::is_empty`. -/
def Interval.is_empty (i : Interval) : Bool := i.lo == i.hi

/-- `Interval::len` (`self.1 - self.0`). -/
def Interval.len (i : Interval) : Nat := i.hi - i.lo

/-- `Interval::missing_before`. -/
def Interval.missing_before (s o : Interval) : Interval :=
  if o.lo < s.lo then ⟨o.lo, s.lo⟩ else ⟨s.lo, s.lo⟩

/-- `Interval::missing_after`. -/
def Interval.missing_after (s o : Interval) : Interval :=
  if o.hi > s.hi then ⟨s.hi, o.hi⟩ else ⟨s.hi, s.hi⟩

/-- `Interval::contains`. -/
def Interval.contains (s o : Interval) : Bool :=
  o.is_empty || ((s.missing_before o).is_empty && (s.missing_after o).is_empty)

/-- `base::Id`: a typed identifier wrapping the global counter value. -/
inductive Id where
  | distinct (n : Nat)
  | file (n : Nat)
  | filter (n : Nat)
  | tag (n : Nat)
deriving DecidableEq, Repr

/-- `base::Comparator`. -/
inductive Comparator where
  | equal
  | notEqual
  | greaterThan
  | greaterThanEqual
  | lessThan
  | lessThanEqual
deriving DecidableEq, Repr

/-- Byte-lexicographic comparison: Rust `Ord` on `String` (comparison of the
UTF-8 byte sequences). -/
def strCmp : Str → Str → Ordering
  | [], [] => .eq
  | [], _ :: _ => .lt
  | _ :: _, [] => .gt
  | a :: as, b :: bs =>
    if a < b then .lt else if b < a then .gt else strCmp as bs

/-- The truth of `left comp right` for a direct filter, as in the `match` arms
of `Engine::filter_values` (Rust `==`, `!=`, `>`, `>=`, `<`, `<=` on
`String`). -/
def cmpHolds (c : Comparator) (left right : Str) : Bool :=
  match c with
  | .equal => left == right
  | .notEqual => left != right
  | .greaterThan => strCmp left right == .gt
  | .greaterThanEqual => strCmp left right != .lt
  | .lessThan => strCmp left right == .lt
  | .lessThanEqual => strCmp left right != .gt

/-- Error type; the `Error` enum of src/src/error.rs restricted to the variants
the engine can produce, plus `panicked` for Rust panics and `outOfFuel` marking
the (never reached) exhaustion of the batch-loop fuel. -/
inductive Err where
  | ioErr
  | luaErr
  | fileNotLoaded (fid : Nat)
  | missingId (id : Id)
  | panicked
  | outOfFuel
deriving DecidableEq, Repr

/-- The compiled regex of a `Tag`, modelled through the interface the engine
uses: applied to a line it yields `none` when there is no match, and
`some g1` on a match, where `g1` is capture group 1 when present. -/
abbrev Reg := Str → Option (Option Str)

/-- The embedded scripting runtime (`rlua`), modelled as an opaque deterministic
evaluator: `evalS src chunk` evaluates a transform script on `chunk` to a
string (`none` = evaluation error), `evalB` a predicate script to a boolean,
`runOk` whether a standalone `Script` command evaluates without error. -/
structure LuaRt where
  evalS : Str → Str → Option Str
  evalB : Str → Str → Option Bool
  runOk : Str → Bool

/-- The reader half of `engine::File`: the on-disk bytes, the byte position of
the buffered reader, and the `index` field tracked by `File::read`. -/
structure FileSt where
  bytes : Str
  index : Nat
  pos : Nat
deriving DecidableEq, Repr

/-- `engine::Tag`. -/
structure Tag where
  name : Str
  regex : Option Reg
  transform : Option Str

/-- `engine::Filter`. -/
inductive Filter where
  | direct (comp : Comparator) (value : Str)
  | scripted (test : Str)

/-- `engine::FileCache`. -/
structure FileCache where
  start : Nat
  loaded : List Str
deriving DecidableEq, Repr

/-- `FileCache::default`. -/
def FileCache.empty : FileCache := ⟨0, []⟩

/-- `FileCache::bounds` (note the source: `Interval(self.start, self.loaded.len())`). -/
def FileCache.bounds (c : FileCache) : Interval := ⟨c.start, c.loaded.length⟩

/-- `engine::TagCache`; entries are `TagValue = Option<String>`. -/
structure TagCache where
  start : Nat
  loaded : List (Option Str)
deriving DecidableEq, Repr

/-- `TagCache::default`. -/
def TagCache.empty : TagCache := ⟨0, []⟩

/-- `TagCache::bounds`. -/
def TagCache.bounds (c : TagCache) : Interval := ⟨c.start, c.loaded.length⟩

/-- `engine::FilterCache`; the bitset is a `Finset Nat`. The `end` field of the
source is named `stop`. -/
structure FilterCache where
  start : Nat
  stop : Nat
  loaded : Finset Nat
deriving DecidableEq

/-- `FilterCache::default`. -/
def FilterCache.empty : FilterCache := ⟨0, 0, ∅⟩

/-- `FilterCache::bounds`. -/
def FilterCache.bounds (c : FilterCache) : Interval := ⟨c.start, c.stop⟩

/-- `FilterCache::count`. -/
def FilterCache.count (c : FilterCache) : Nat := c.loaded.card

/-- Abstract interface of the `ethbloom::Bloom` component: membership test and
accrual of a raw byte sequence. -/
structure BloomOps (β : Type) where
  contains : β → Str → Bool
  accrue : β → Str → β

/-- The exact-set bloom model: a bloom with no false positives, used to
instantiate the engine. The zero bloom is `[]`. -/
def listBloom : BloomOps (List Str) :=
  ⟨fun b v => b.contains v, fun b v => v :: b⟩

/-- `engine::DistinctCache` (over the exact-set bloom model). The `end` field of
the source is named `stop`. -/
structure DistinctCache where
  start : Nat
  stop : Nat
  loaded : Finset Nat
  bloom : List Str
deriving DecidableEq

/-- `DistinctCache::default` (`ethbloom::Bloom::zero` is `[]`). -/
def DistinctCache.empty : DistinctCache := ⟨0, 0, ∅, []⟩

/-- `DistinctCache::bounds`. -/
def DistinctCache.bounds (c : DistinctCache) : Interval := ⟨c.start, c.stop⟩

/-- `DistinctCache::count`. -/
def DistinctCache.count (c : DistinctCache) : Nat := c.loaded.card

/-- `engine::Engine` (the `rlua::Lua` field is the external `LuaRt` parameter of
the operations; the `debug` flag is fixed to `false`, so the `Stats` sink is a
no-op and is omitted). -/
structure Engine where
  last_id : Nat
  files : MapL FileSt
  file_caches : MapL FileCache
  tags : MapL Tag
  tag_caches : MapL TagCache
  tag_to_file : MapL Nat
  filters : MapL Filter
  filter_caches : MapL FilterCache
  filter_to_parent : MapL Id
  distinct_caches : MapL DistinctCache
  distinct_to_parent : MapL Id

/-- `Engine::new`. -/
def Engine.new : Engine := ⟨0, [], [], [], [], [], [], [], [], [], []⟩

/-- The bytes of one line starting a byte sequence: everything up to and
including the first newline (byte 10), or the whole sequence if none. -/
def lineAt : Str → Str
  | [] => []
  | b :: rest => if b == 10 then [b] else b :: lineAt rest

/-- One `BufReader::read_line` starting at byte position `pos`: returns the
line (terminator included, empty at end of file) and the new position. -/
def readLine (bytes : Str) (pos : Nat) : Str × Nat :=
  let line := lineAt (bytes.drop pos)
  (line, pos + line.length)

/-- The `for idx in interval.iter()` loop of `File::read`: reads up to `n`
lines from byte position `pos`, setting `self.index = idx` at the top of each
iteration and breaking when `read_line` returns 0 bytes. Returns the lines
read, the final `index`, and the final byte position. -/
def readGo (bytes : Str) : Nat → Nat → Nat → Nat → List Str × Nat × Nat
  | index, _pos, _idx, 0 => ([], index, _pos)
  | _index, pos, idx, n + 1 =>
    let r := readLine bytes pos
    if r.1.length == 0 then ([], idx, r.2)
    else
      let rest := readGo bytes idx r.2 (idx + 1) n
      (r.1 :: rest.1, rest.2.1, rest.2.2)

/-- `File::read`: seeks by `interval.0 - self.index` (a line-index difference
used as a byte offset; seeking before byte 0 is an I/O error), then reads
`interval.len()` complete lines, stopping early at end of file. -/
def FileSt.read (f : FileSt) (iv : Interval) : Except Err (List Str × FileSt) :=
  let offset : Int := (iv.lo : Int) - (f.index : Int)
  let p : Int := (f.pos : Int) + offset
  if p < 0 then .error .ioErr
  else
    let r := readGo f.bytes f.index p.toNat iv.lo iv.len
    .ok (r.1, { f with index := r.2.1, pos := r.2.2 })

/-- `Engine::transform_chunk`. -/
def transform_chunk (rt : LuaRt) (transform : Option Str) (chunk : Str) : Except Err Str :=
  match transform with
  | some src =>
    match rt.evalS src chunk with
    | some s => .ok s
    | none => .error .luaErr
  | none => .ok chunk

/-- `Engine::test_chunk`. -/
def test_chunk (rt : LuaRt) (test chunk : Str) : Except Err Bool :=
  match rt.evalB test chunk with
  | some b => .ok b
  | none => .error .luaErr

/-- `Engine::parse_tag_from_lines`. -/
def parse_tag_from_lines (rt : LuaRt) (tag : Tag) (lines : List Str) : List (Option Str) :=
  lines.map (fun line =>
    match tag.regex with
    | some rx =>
      (rx line).bind (fun g1 => g1.bind (fun m => (transform_chunk rt tag.transform m).toOption))
    | none => (transform_chunk rt tag.transform line).toOption)

/-- The `Filter::Direct` loop of `Engine::filter_values`, over the enumerated
tail of `values` starting at relative index `idx`. -/
def filterDirectGo (comp : Comparator) (right : Str) (start : Nat) :
    List (Option Str) → Nat → Finset Nat
  | [], _ => ∅
  | v :: rest, idx =>
    let s := filterDirectGo comp right start rest (idx + 1)
    match v with
    | some left => if cmpHolds comp left right then insert (start + idx) s else s
    | none => s

/-- The `Filter::Scripted` loop of `Engine::filter_values`; a failing
`test_chunk` propagates as an error (the `?` in the source). -/
def filterScriptedGo (rt : LuaRt) (script : Str) (start : Nat) :
    List (Option Str) → Nat → Except Err (Finset Nat)
  | [], _ => .ok ∅
  | v :: rest, idx =>
    match v with
    | some value => do
      let b ← test_chunk rt script value
      let s ← filterScriptedGo rt script start rest (idx + 1)
      .ok (if b then insert (start + idx) s else s)
    | none => filterScriptedGo rt script start rest (idx + 1)

/-- `Engine::filter_values`. -/
def filter_values (rt : LuaRt) (filter : Filter) (values : List (Option Str)) (start : Nat) :
    Except Err (Finset Nat) :=
  match filter with
  | .direct comp right => .ok (filterDirectGo comp right start values 0)
  | .scripted script => filterScriptedGo rt script start values 0

/-- The loop of `Engine::distinct_values`, generic over the bloom component. -/
def distinctGo {β : Type} (B : BloomOps β) (start : Nat) :
    List (Option Str) → Nat → β → Finset Nat × β
  | [], _, bloom => (∅, bloom)
  | v :: rest, idx, bloom =>
    match v with
    | some value =>
      if B.contains bloom value then distinctGo B start rest (idx + 1) bloom
      else
        let r := distinctGo B start rest (idx + 1) (B.accrue bloom value)
        (insert (start + idx) r.1, r.2)
    | none => distinctGo B start rest (idx + 1) bloom

/-- `Engine::distinct_values` (the bloom is threaded through and returned,
modelling the `&mut` parameter). -/
def distinct_values {β : Type} (B : BloomOps β) (bloom : β) (tag_values : List (Option Str))
    (start : Nat) : Finset Nat × β :=
  distinctGo B start tag_values 0 bloom

/-- `Engine::ensure_file`; returns the covered count and the updated engine. -/
def Engine.ensure_file (e : Engine) (fid : Nat) (iv : Interval) : Except Err (Nat × Engine) :=
  let cache := (getM e.file_caches fid).getD FileCache.empty
  let e1 := { e with file_caches := insertM e.file_caches fid cache }
  let cb := cache.bounds
  if cb.contains iv then
    .ok (min (cb.hi - iv.lo) iv.len, e1)
  else
    match getM e1.files fid with
    | none => .error (.fileNotLoaded fid)
    | some f0 => do
      let mb := cb.missing_before iv
      let fc1 ←
        if mb.is_empty then pure (f0, cache)
        else do
          let r ← f0.read mb
          pure (r.2, { cache with loaded := r.1 ++ cache.loaded, start := mb.lo })
      let ma := cb.missing_after iv
      let fc2 ←
        if ma.is_empty then pure fc1
        else do
          let r ← fc1.1.read ma
          pure (r.2, { fc1.2 with loaded := fc1.2.loaded ++ r.1 })
      let e2 := { e1 with files := insertM e1.files fid fc2.1,
                          file_caches := insertM e1.file_caches fid fc2.2 }
      .ok (min (fc2.2.bounds.hi - min fc2.2.bounds.hi iv.lo) iv.len, e2)

/-- `Engine::read_lines` (`&cache.loaded[interval.0..interval.1]`; a missing
cache or an out-of-bounds slice panics). -/
def Engine.read_lines (e : Engine) (fid : Nat) (iv : Interval) : Except Err (List Str) :=
  match getM e.file_caches fid with
  | none => .error .panicked
  | some c =>
    if iv.lo ≤ iv.hi ∧ iv.hi ≤ c.loaded.length then
      .ok ((c.loaded.drop iv.lo).take (iv.hi - iv.lo))
    else .error .panicked

/-- `Engine::read_tag`. -/
def Engine.read_tag (e : Engine) (tid : Nat) (iv : Interval) : Except Err (List (Option Str)) :=
  match getM e.tag_caches tid with
  | none => .error .panicked
  | some c =>
    if iv.lo ≤ iv.hi ∧ iv.hi ≤ c.loaded.length then
      .ok ((c.loaded.drop iv.lo).take (iv.hi - iv.lo))
    else .error .panicked

/-- `Engine::ensure_tag`. -/
def Engine.ensure_tag (e : Engine) (rt : LuaRt) (fid tid : Nat) (iv : Interval) :
    Except Err Engine :=
  let cacheOpt := getM e.tag_caches tid
  let cb := (cacheOpt.map TagCache.bounds).getD ⟨0, 0⟩
  if cb.contains iv then .ok e
  else
    match getM e.tags tid with
    | none => .error (.missingId (.tag tid))
    | some tag => do
      let mb := cb.missing_before iv
      let pre ←
        if mb.is_empty then pure none
        else do
          let lines ← e.read_lines fid mb
          pure (some (parse_tag_from_lines rt tag lines))
      let ma := cb.missing_after iv
      let suf ←
        if ma.is_empty then pure none
        else do
          let lines ← e.read_lines fid ma
          pure (some (parse_tag_from_lines rt tag lines))
      let cache := cacheOpt.getD TagCache.empty
      let cache := match pre with
        | some p => { cache with loaded := p ++ cache.loaded, start := iv.lo }
        | none => cache
      let cache := match suf with
        | some s => { cache with loaded := cache.loaded ++ s }
        | none => cache
      .ok { e with tag_caches := insertM e.tag_caches tid cache }

/-- The iteration order of a `HashMap` is not specified; runs of the engine
differ in it. It is modelled as an explicit reordering parameter applied
wherever the source iterates `tag_to_file` (`Engine::file_to_tags`). -/
abbrev Sh := List Nat → List Nat

/-- `Engine::file_to_tags`. -/
def Engine.file_to_tags (e : Engine) (sh : Sh) (fid : Nat) : List Nat :=
  sh ((e.tag_to_file.filter (fun kv => kv.2 == fid)).map (fun kv => kv.1))

/-- The loop of `Engine::ensure_all_tags`. -/
def ensureTagsGo (rt : LuaRt) (fid : Nat) (iv : Interval) : List Nat → Engine → Except Err Engine
  | [], e => .ok e
  | t :: rest, e => do
    let e2 ← e.ensure_tag rt fid t iv
    ensureTagsGo rt fid iv rest e2

/-- `Engine::ensure_all_tags`. -/
def Engine.ensure_all_tags (e : Engine) (rt : LuaRt) (sh : Sh) (fid : Nat) (iv : Interval) :
    Except Err Engine :=
  ensureTagsGo rt fid iv (e.file_to_tags sh fid) e

/-- The loop of `Engine::read_all_tags` (`self.tags[&tag_id]` panics when
missing). -/
def readAllTagsGo (e : Engine) (iv : Interval) :
    List Nat → Except Err (List (Str × List (Option Str)))
  | [] => .ok []
  | t :: rest =>
    match getM e.tags t with
    | none => .error .panicked
    | some tag => do
      let vals ← e.read_tag t iv
      let others ← readAllTagsGo e iv rest
      .ok ((tag.name, vals) :: others)

/-- `Engine::read_all_tags`. -/
def Engine.read_all_tags (e : Engine) (sh : Sh) (fid : Nat) (iv : Interval) :
    Except Err (List (Str × List (Option Str))) :=
  readAllTagsGo e iv (e.file_to_tags sh fid)

/-- `Engine::ensure_filter`. -/
def Engine.ensure_filter (e : Engine) (rt : LuaRt) (tid filid : Nat) (iv : Interval) :
    Except Err Engine :=
  let cacheOpt := getM e.filter_caches filid
  let cb := (cacheOpt.map FilterCache.bounds).getD ⟨0, 0⟩
  if cb.contains iv then .ok e
  else
    match getM e.filters filid with
    | none => .error (.missingId (.filter filid))
    | some filter => do
      let mb := cb.missing_before iv
      let pre ←
        if mb.is_empty then pure none
        else do
          let vals ← e.read_tag tid mb
          let s ← filter_values rt filter vals mb.lo
          pure (some s)
      let ma := cb.missing_after iv
      let suf ←
        if ma.is_empty then pure none
        else do
          let vals ← e.read_tag tid ma
          let s ← filter_values rt filter vals ma.lo
          pure (some s)
      let cache := cacheOpt.getD FilterCache.empty
      let cache := match pre with
        | some p => { cache with loaded := p ∪ cache.loaded, start := iv.lo }
        | none => cache
      let cache := match suf with
        | some s => { cache with loaded := cache.loaded ∪ s, stop := iv.hi }
        | none => cache
      .ok { e with filter_caches := insertM e.filter_caches filid cache }

/-- `Engine::read_filter` (panics when the cache is missing). -/
def Engine.read_filter (e : Engine) (filid : Nat) : Except Err (Finset Nat) :=
  match getM e.filter_caches filid with
  | none => .error .panicked
  | some c => .ok c.loaded

/-- `Engine::ensure_distinct`. -/
def Engine.ensure_distinct (e : Engine) (tid did : Nat) (iv : Interval) : Except Err Engine :=
  let cacheOpt := getM e.distinct_caches did
  let cb := (cacheOpt.map DistinctCache.bounds).getD ⟨0, 0⟩
  if cb.contains iv then .ok e
  else do
    let bloom0 := (cacheOpt.map (fun c => c.bloom)).getD []
    let mb := cb.missing_before iv
    let pre ←
      if mb.is_empty then pure (none, bloom0)
      else do
        let vals ← e.read_tag tid mb
        let r := distinct_values listBloom bloom0 vals mb.lo
        pure (some r.1, r.2)
    let ma := cb.missing_after iv
    let suf ←
      if ma.is_empty then pure ((none : Option (Finset Nat)), pre.2)
      else do
        let vals ← e.read_tag tid ma
        let r := distinct_values listBloom pre.2 vals ma.lo
        pure (some r.1, r.2)
    let cache := cacheOpt.getD DistinctCache.empty
    let cache := match pre.1 with
      | some p => { cache with loaded := p ∪ cache.loaded, start := iv.lo }
      | none => cache
    let cache := match suf.1 with
      | some s => { cache with loaded := cache.loaded ∪ s, stop := iv.hi }
      | none => cache
    let cache := { cache with bloom := suf.2 }
    .ok { e with distinct_caches := insertM e.distinct_caches did cache }

/-- `Engine::read_distinct` (panics when the cache is missing). -/
def Engine.read_distinct (e : Engine) (did : Nat) : Except Err (Finset Nat) :=
  match getM e.distinct_caches did with
  | none => .error .panicked
  | some c => .ok c.loaded

/-- `Engine::find_parent_tag`; indexing a parent map with a missing key
panics, and a cyclic parent chain overflows the stack (both `Err.panicked`).
The fuel bounds the recursion depth. -/
def Engine.find_parent_tag (e : Engine) : Nat → Id → Except Err (Option Nat)
  | 0, _ => .error .panicked
  | fuel + 1, id =>
    match id with
    | .distinct d =>
      match getM e.distinct_to_parent d with
      | none => .error .panicked
      | some p => e.find_parent_tag fuel p
    | .filter f =>
      match getM e.filter_to_parent f with
      | none => .error .panicked
      | some p => e.find_parent_tag fuel p
    | .tag t => .ok (some t)
    | .file _ => .ok none

/-- `engine::Plan`. -/
structure Plan where
  steps : List Id
deriving DecidableEq, Repr

/-- `Engine::plan_steps` (same panic conventions as `find_parent_tag`). -/
def Engine.plan_steps (e : Engine) : Nat → Id → Except Err (List Id)
  | 0, _ => .error .panicked
  | fuel + 1, id =>
    match id with
    | .file _ => .ok [id]
    | .distinct d =>
      match getM e.distinct_to_parent d with
      | none => .error .panicked
      | some p => do
        let ps ← e.plan_steps fuel p
        .ok (ps ++ [id])
    | .filter f =>
      match getM e.filter_to_parent f with
      | none => .error .panicked
      | some p => do
        let ps ← e.plan_steps fuel p
        .ok (ps ++ [id])
    | .tag t =>
      match getM e.tag_to_file t with
      | none => .error .panicked
      | some p => do
        let ps ← e.plan_steps fuel (.file p)
        .ok (ps ++ [id])

/-- `Engine::plan`. Any acyclic parent chain has length at most `last_id + 1`,
so the fuel `last_id + 2` is only exhausted by a cyclic chain (a stack
overflow in the source). -/
def Engine.plan (e : Engine) (id : Id) : Except Err Plan := do
  let s ← e.plan_steps (e.last_id + 2) id
  .ok ⟨s⟩

/-- `Plan::file_id` (panics when the first step is not a `File`). -/
def Plan.file_id (p : Plan) : Except Err Nat :=
  match p.steps with
  | .file f :: _ => .ok f
  | _ => .error .panicked

/-- `Plan::filter_ids`. -/
def Plan.filter_ids (p : Plan) : List Nat :=
  p.steps.filterMap (fun s => match s with | .filter f => some f | _ => none)

/-- `Plan::distinct_ids`. -/
def Plan.distinct_ids (p : Plan) : List Nat :=
  p.steps.filterMap (fun s => match s with | .distinct d => some d | _ => none)

/-- The byte sequence of an ASCII string literal. -/
def strLit (s : String) : Str := s.data.map Char.toNat

/-- Decimal rendering of a `usize` (Rust `{}` formatting). -/
def natStr (n : Nat) : Str := (Nat.toDigits 10 n).map Char.toNat

/-- Rust `{:?}` rendering of a `base::Id`. -/
def Id.dbgFmt : Id → Str
  | .distinct n => strLit "DistinctId(" ++ natStr n ++ strLit ")"
  | .file n => strLit "FileId(" ++ natStr n ++ strLit ")"
  | .filter n => strLit "FilterId(" ++ natStr n ++ strLit ")"
  | .tag n => strLit "TagId(" ++ natStr n ++ strLit ")"

/-- Rust `{: <15}` formatting: left-align, pad with spaces to width 15. -/
def padTo15 (s : Str) : Str := s ++ List.replicate (15 - s.length) 32

/-- One byte under Rust `{:?}` string escaping (the escapes relevant to the
byte values the development uses). -/
def dbgByte (b : Nat) : Str :=
  if b == 10 then [92, 110]
  else if b == 13 then [92, 114]
  else if b == 9 then [92, 116]
  else if b == 34 then [92, 34]
  else if b == 92 then [92, 92]
  else [b]

/-- Rust `{:?}` rendering of a string: quoted and escaped. -/
def dbgQuote (s : Str) : Str := 34 :: ((s.map dbgByte).flatten ++ [34])

/-- One tag annotation line of `Engine::take`:
`format!("    {: <15} {:?}", format!("[{}]", name), value)` for a present
value, `format!("    [{: <15}] N/A", name)` for a missing one. -/
def fmtTagLine (name : Str) (v : Option Str) : Str :=
  match v with
  | some value => strLit "    " ++ padTo15 ((91 :: name) ++ [93]) ++ (32 :: dbgQuote value)
  | none => strLit "    " ++ (91 :: padTo15 name) ++ (93 :: strLit " N/A")

/-- The tag annotation block for one surviving line: `tag_values[idx]` panics
when `idx` is out of bounds of a tag slice. -/
def tagLines (tags : List (Str × List (Option Str))) (idx : Nat) : Except Err (List Str) :=
  match tags with
  | [] => .ok []
  | (name, vals) :: rest =>
    match vals.get? idx with
    | none => .error .panicked
    | some v => do
      let others ← tagLines rest idx
      .ok (fmtTagLine name v :: others)

/-- The rendering loop of `Engine::take`: walk the covered lines with their
relative index, skip indices missing from the combined filter, and after each
emitted record stop once `count` survivors are rendered. -/
def renderGo (tags : List (Str × List (Option Str))) (comb : Option (Finset Nat)) (count : Nat) :
    List Str → Nat → Nat → Except Err (List Str)
  | [], _, _ => .ok []
  | line :: rest, idx, cc =>
    if (match comb with | some fs => decide (idx ∈ fs) | none => true) then do
      let tls ← tagLines tags idx
      if count ≤ cc + 1 then .ok (line :: (tls ++ [[]]))
      else do
        let more ← renderGo tags comb count rest (idx + 1) (cc + 1)
        .ok (line :: (tls ++ ([] :: more)))
    else renderGo tags comb count rest (idx + 1) cc

/-- The bitset-intersection fold of `Engine::take` over one family of ids. -/
def combineGo (read1 : Nat → Except Err (Finset Nat)) :
    List Nat → Option (Finset Nat) → Except Err (Option (Finset Nat))
  | [], acc => .ok acc
  | i :: rest, acc => do
    let s ← read1 i
    match acc with
    | some f => combineGo read1 rest (some (f ∩ s))
    | none => combineGo read1 rest (some s)

/-- `engine::ReadIntervals` (with `max` fixed to `MAX_BATCH_SIZE` at the only
use site). -/
structure RI where
  index : Nat
  next : Nat
deriving DecidableEq, Repr

/-- `MAX_BATCH_SIZE`. -/
def MAX_BATCH_SIZE : Nat := 1024

/-- `ReadIntervals::new`. -/
def RI.new (min0 max0 : Nat) : RI := ⟨0, Nat.min min0 max0⟩

/-- `ReadIntervals::next` (the iterator never returns `None`). -/
def RI.step (r : RI) : Interval × RI :=
  (⟨r.index, r.index + r.next⟩, ⟨r.index + r.next, Nat.min 1024 (r.next * 2)⟩)

/-- The `for id in &plan.steps` body of one batch of `Engine::take`. The
returned flag records a `break 'outer` (a zero `ensure_file` count). -/
def Engine.takeBatchSteps (rt : LuaRt) :
    Engine → Interval → Interval → List Id → Except Err (Engine × Interval × Bool)
  | e, cov, _, [] => .ok (e, cov, false)
  | e, cov, batch, step :: rest =>
    match step with
    | .file fid => do
      let r ← e.ensure_file fid batch
      if r.1 == 0 then .ok (r.2, cov, true)
      else Engine.takeBatchSteps rt r.2 ⟨cov.lo, cov.hi + r.1⟩ batch rest
    | .distinct did => do
      let t? ← e.find_parent_tag (e.last_id + 2) (.distinct did)
      match t? with
      | none => .error .panicked
      | some tid => do
        let e2 ← e.ensure_distinct tid did cov
        Engine.takeBatchSteps rt e2 cov batch rest
    | .filter filid => do
      let t? ← e.find_parent_tag (e.last_id + 2) (.filter filid)
      match t? with
      | none => .error .panicked
      | some tid => do
        let e2 ← e.ensure_filter rt tid filid cov
        Engine.takeBatchSteps rt e2 cov batch rest
    | .tag tid =>
      match getM e.tag_to_file tid with
      | none => .error .panicked
      | some fid => do
        let e2 ← e.ensure_tag rt fid tid cov
        Engine.takeBatchSteps rt e2 cov batch rest

/-- The leaf inspection after each batch of `Engine::take` (indexing a cache
map with a missing key panics). -/
def Engine.leafCount (e : Engine) (leaf : Id) : Except Err Nat :=
  match leaf with
  | .distinct d =>
    match getM e.distinct_caches d with
    | none => .error .panicked
    | some c => .ok c.count
  | .file f =>
    match getM e.file_caches f with
    | none => .error .panicked
    | some c => .ok c.bounds.len
  | .filter fl =>
    match getM e.filter_caches fl with
    | none => .error .panicked
    | some c => .ok c.count
  | .tag t =>
    match getM e.tag_caches t with
    | none => .error .panicked
    | some c => .ok c.bounds.len

/-- The `'outer` batch loop of `Engine::take`, with explicit fuel standing for
the infinite `ReadIntervals` iterator. -/
def Engine.takeLoop (rt : LuaRt) (steps : List Id) (count : Nat) :
    Nat → Engine → Interval → RI → Except Err (Engine × Interval)
  | 0, _, _, _ => .error .outOfFuel
  | fuel + 1, e, cov, ri => do
    let b := ri.step
    let r ← Engine.takeBatchSteps rt e cov b.1 steps
    if r.2.2 then .ok (r.1, r.2.1)
    else
      match steps.getLast? with
      | none => .error .panicked
      | some leaf => do
        let c ← r.1.leafCount leaf
        if count ≤ c then .ok (r.1, r.2.1)
        else Engine.takeLoop rt steps count fuel r.1 r.2.1 b.2

/-- The fuel `Engine.take` hands to the batch loop: for a plan rooted at a
file, the current line-cache size plus the byte length of the file plus two.
The termination theorem shows this is never exhausted for a file-rooted,
well-formed state; plans not rooted at a `File` panic right after the loop in
the source (and may in fact loop forever there — only file-rooted plans are
reachable through `run_command`). -/
def Engine.takeFuel (e : Engine) (steps : List Id) : Nat :=
  match steps with
  | .file fid :: _ =>
    ((getM e.file_caches fid).getD FileCache.empty).loaded.length +
      (((getM e.files fid).map (fun f => f.bytes.length)).getD 0 + 2)
  | _ => 1

/-- `Engine::take`. -/
def Engine.take (e : Engine) (rt : LuaRt) (sh : Sh) (plan : Plan) (count : Nat) :
    Except Err (List Str × Engine) := do
  let r ← Engine.takeLoop rt plan.steps count (e.takeFuel plan.steps) e ⟨0, 0⟩
    (RI.new count MAX_BATCH_SIZE)
  let fid ← plan.file_id
  let e3 ← r.1.ensure_all_tags rt sh fid r.2
  let lines ← e3.read_lines fid r.2
  let tags ← e3.read_all_tags sh fid r.2
  let comb1 ← combineGo e3.read_filter plan.filter_ids none
  let comb ← combineGo e3.read_distinct plan.distinct_ids comb1
  let results ← renderGo tags comb count lines 0 0
  .ok (results, e3)

/-- `engine::Output`, restricted to the fields the claims observe. -/
structure OutputM where
  id : Option Id
  lines : List Str
deriving DecidableEq, Repr

/-- `Output::with_message`. -/
def OutputM.with_message (id : Option Id) (msg : Str) : OutputM := ⟨id, [msg]⟩

/-- `engine::Command`. `Load` carries the contents of the file at its path
(the filesystem is external); `Regex` carries the compiled pattern (the
`regex` crate is external). -/
inductive Command where
  | load (path : Str) (bytes : Str)
  | script (src : Str)
  | tag (fid : Nat) (tag_name : Str)
  | regex (tid : Nat) (rx : Reg)
  | transform (tid : Nat) (src : Str)
  | directFilter (parent : Id) (comp : Comparator) (value : Str)
  | scriptedFilter (parent : Id) (test : Str)
  | distinct (parent : Id)
  | group (parent : Id)
  | take (id : Id) (count : Nat)

/-- `Engine::run_command`. -/
def Engine.run_command (e : Engine) (rt : LuaRt) (sh : Sh) (c : Command) :
    Except Err (OutputM × Engine) :=
  match c with
  | .load path bytes =>
    let id := e.last_id + 1
    let e2 := { e with last_id := id, files := insertM e.files id ⟨bytes, 0, 0⟩ }
    .ok (OutputM.with_message (some (.file id))
      (strLit "file loaded: " ++ Id.dbgFmt (.file id) ++ (32 :: dbgQuote path)), e2)
  | .script src =>
    if rt.runOk src then .ok (OutputM.with_message none (strLit "script loaded"), e)
    else .error .luaErr
  | .tag fid tag_name =>
    let id := e.last_id + 1
    let e2 := { e with last_id := id,
                       tags := insertM e.tags id ⟨tag_name, none, none⟩,
                       tag_to_file := insertM e.tag_to_file id fid }
    .ok (OutputM.with_message (some (.tag id))
      (strLit "tag loaded: " ++ natStr id ++ (32 :: tag_name)), e2)
  | .regex tid rx =>
    match getM e.tags tid with
    | none => .error (.missingId (.tag tid))
    | some tag =>
      let e2 := { e with tags := insertM e.tags tid { tag with regex := some rx } }
      .ok (OutputM.with_message (some (.tag tid)) (strLit "regex added to: " ++ natStr tid), e2)
  | .transform tid src =>
    match getM e.tags tid with
    | none => .error (.missingId (.tag tid))
    | some tag =>
      let e2 := { e with tags := insertM e.tags tid { tag with transform := some src } }
      .ok (OutputM.with_message (some (.tag tid))
        (strLit "transform added to: " ++ natStr tid), e2)
  | .directFilter parent comp value =>
    let id := e.last_id + 1
    let e2 := { e with last_id := id,
                       filters := insertM e.filters id (.direct comp value),
                       filter_to_parent := insertM e.filter_to_parent id parent }
    .ok (OutputM.with_message (some (.filter id)) (strLit "filter loaded: " ++ natStr id), e2)
  | .scriptedFilter parent test =>
    let id := e.last_id + 1
    let e2 := { e with last_id := id,
                       filters := insertM e.filters id (.scripted test),
                       filter_to_parent := insertM e.filter_to_parent id parent }
    .ok (OutputM.with_message (some (.filter id)) (strLit "filter loaded: " ++ natStr id), e2)
  | .distinct parent =>
    let id := e.last_id + 1
    let e2 := { e with last_id := id,
                       distinct_to_parent := insertM e.distinct_to_parent id parent }
    .ok (OutputM.with_message (some (.distinct id)) (strLit "distinct loaded: " ++ natStr id), e2)
  | .group _ => .error .panicked
  | .take id count => do
    let p ← e.plan id
    let r ← e.take rt sh p count
    .ok (⟨none, r.1⟩, r.2)

/-- A command sequence run through `Engine::run_command`, as the interpreter
does: the result of each command is recorded and a failed command leaves the
engine unchanged in the model (the source may retain partial cache growth on
failure; no claim observes the state after a failed command). -/
def runCommands (rt : LuaRt) (sh : Sh) : Engine → List Command → List (Except Err OutputM) × Engine
  | e, [] => ([], e)
  | e, c :: rest =>
    match e.run_command rt sh c with
    | .ok r =>
      let rs := runCommands rt sh r.2 rest
      (.ok r.1 :: rs.1, rs.2)
    | .error err =>
      let rs := runCommands rt sh e rest
      (.error err :: rs.1, rs.2)

/-- A deterministic runtime whose script evaluations all fail (scripts are
never used in the scenarios that employ it, or are meant to fail). -/
def rtDet : LuaRt := ⟨fun _ _ => none, fun _ _ => none, fun _ => true⟩

/-- The identity iteration order. -/
def shId : Sh := fun l => l

/-- The reversed iteration order (an equally legitimate `HashMap` order). -/
def shRev : Sh := fun l => l.reverse

/-- Reference (spec-side) definition: the lines of a byte sequence, with their
terminators, accumulating the current line. Used to state what "line `i` of
the file" means. -/
def fileLinesGo : Str → Str → List Str
  | [], acc => if acc.isEmpty then [] else [acc]
  | b :: rest, acc =>
    if b == 10 then (acc ++ [10]) :: fileLinesGo rest []
    else fileLinesGo rest (acc ++ [b])

/-- Reference (spec-side) definition: the list of lines of a file's bytes. -/
def fileLines (bytes : Str) : List Str := fileLinesGo bytes []

/-!  General-purpose lemmas about the embedding's containers and monad. -/

theorem bindOk {α β : Type} {m : Except Err α} {k : α → Except Err β} {b : β} :
    (m >>= k) = .ok b ↔ ∃ a, m = .ok a ∧ k a = .ok b := by
  cases m with
  | error err => simp [Bind.bind, Except.bind]
  | ok a => simp [Bind.bind, Except.bind]

theorem getM_insertM_self {α : Type} (m : MapL α) (k : Nat) (v : α) :
    getM (insertM m k v) k = some v := by
  induction m with
  | nil => simp [getM, insertM]
  | cons kv rest ih =>
    by_cases h : kv.1 = k
    · simp [getM, insertM, h]
    · simp [getM, insertM, h, ih]

theorem getM_insertM_ne {α : Type} (m : MapL α) (k k2 : Nat) (v : α) (h : k2 ≠ k) :
    getM (insertM m k v) k2 = getM m k2 := by
  induction m with
  | nil => simp [getM, insertM, h, Ne.symm h]
  | cons kv rest ih =>
    by_cases hk : kv.1 = k
    · simp [getM, insertM, hk, h, Ne.symm h]
    · by_cases hk2 : kv.1 = k2
      · simp [getM, insertM, hk, hk2, h]
      · simp [getM, insertM, hk, hk2, ih]

/-! Concrete scenarios used by the claim theorems. -/

/-- Load a 3-line file, take 1 line, then take 2 lines: the second take's
suffix read is preceded by the off-by-one relative seek of `File::read`. -/
def c2cmds : List Command :=
  [.load (strLit "f") (strLit "a\nb\nc\n"), .take (.file 1) 1, .take (.file 1) 2]

/-- A file, a whole-line tag, a direct filter matching (corrupted) line 1, and
two identical `Take` commands on the filter. -/
def c6cmds : List Command :=
  [.load (strLit "f") (strLit "a\nbX\nc\n"),
   .tag 1 (strLit "t"),
   .directFilter (.tag 2) .equal (strLit "X\n"),
   .take (.filter 3) 1,
   .take (.filter 3) 1]

/-- An engine holding one 1-line file, a whole-line tag on it, and a scripted
filter over the tag. -/
def eC7 : Engine :=
  { Engine.new with
      last_id := 3,
      files := [(1, ⟨strLit "a\n", 0, 0⟩)],
      tags := [(2, ⟨strLit "t", none, none⟩)],
      tag_to_file := [(2, 1)],
      filters := [(3, .scripted (strLit "boom"))],
      filter_to_parent := [(3, Id.tag 2)] }

/-- A file and two whole-line tags on it, then a `Take` on the file. -/
def c8cmds : List Command :=
  [.load (strLit "f") (strLit "x\ny\n"),
   .tag 1 (strLit "a"),
   .tag 1 (strLit "b"),
   .take (.file 1) 1]

/-- The registration state of the engine is untouched by an operation: all
fields except the caches and the file readers agree. -/
def PresReg (a b : Engine) : Prop :=
  b.last_id = a.last_id ∧ b.tags = a.tags ∧ b.tag_to_file = a.tag_to_file ∧
  b.filters = a.filters ∧ b.filter_to_parent = a.filter_to_parent ∧
  b.distinct_to_parent = a.distinct_to_parent

/-- The file readers and the file caches agree. -/
def PresFile (a b : Engine) : Prop :=
  b.files = a.files ∧ b.file_caches = a.file_caches

theorem presReg_refl (a : Engine) : PresReg a a := by simp [PresReg]

theorem presReg_trans {a b c : Engine} (h1 : PresReg a b) (h2 : PresReg b c) : PresReg a c := by
  obtain ⟨u1, u2, u3, u4, u5, u6⟩ := h1
  obtain ⟨v1, v2, v3, v4, v5, v6⟩ := h2
  exact ⟨v1.trans u1, v2.trans u2, v3.trans u3, v4.trans u4, v5.trans u5, v6.trans u6⟩

theorem ensure_tag_pres {e e2 : Engine} {rt : LuaRt} {fid tid : Nat} {iv : Interval}
    (h : e.ensure_tag rt fid tid iv = .ok e2) : PresReg e e2 ∧ PresFile e e2 := by
  simp only [Engine.ensure_tag, pure_bind] at h
  split at h
  · injection h with h
    subst h
    exact ⟨presReg_refl e, rfl, rfl⟩
  · split at h
    · exact absurd h (by simp)
    · split at h
      · split at h
        · injection h with h
          subst h
          exact ⟨by simp [PresReg], rfl, rfl⟩
        · rw [bindOk] at h
          obtain ⟨lines, -, h⟩ := h
          injection h with h
          subst h
          exact ⟨by simp [PresReg], rfl, rfl⟩
      · rw [bindOk] at h
        obtain ⟨lines, -, h⟩ := h
        split at h
        · injection h with h
          subst h
          exact ⟨by simp [PresReg], rfl, rfl⟩
        · rw [bindOk] at h
          obtain ⟨lines2, -, h⟩ := h
          injection h with h
          subst h
          exact ⟨by simp [PresReg], rfl, rfl⟩

theorem ensure_filter_pres {e e2 : Engine} {rt : LuaRt} {tid filid : Nat} {iv : Interval}
    (h : e.ensure_filter rt tid filid iv = .ok e2) : PresReg e e2 ∧ PresFile e e2 := by
  simp only [Engine.ensure_filter, pure_bind] at h
  split at h
  · injection h with h
    subst h
    exact ⟨presReg_refl e, rfl, rfl⟩
  · split at h
    · exact absurd h (by simp)
    · split at h
      · split at h
        · injection h with h
          subst h
          exact ⟨by simp [PresReg], rfl, rfl⟩
        · rw [bindOk] at h
          obtain ⟨vals, -, h⟩ := h
          rw [bindOk] at h
          obtain ⟨s, -, h⟩ := h
          injection h with h
          subst h
          exact ⟨by simp [PresReg], rfl, rfl⟩
      · rw [bindOk] at h
        obtain ⟨vals, -, h⟩ := h
        rw [bindOk] at h
        obtain ⟨s, -, h⟩ := h
        split at h
        · injection h with h
          subst h
          exact ⟨by simp [PresReg], rfl, rfl⟩
        · rw [bindOk] at h
          obtain ⟨vals2, -, h⟩ := h
          rw [bindOk] at h
          obtain ⟨s2, -, h⟩ := h
          injection h with h
          subst h
          exact ⟨by simp [PresReg], rfl, rfl⟩

theorem ensure_distinct_pres {e e2 : Engine} {tid did : Nat} {iv : Interval}
    (h : e.ensure_distinct tid did iv = .ok e2) : PresReg e e2 ∧ PresFile e e2 := by
  simp only [Engine.ensure_distinct, pure_bind] at h
  split at h
  · injection h with h
    subst h
    exact ⟨presReg_refl e, rfl, rfl⟩
  · split at h
    · split at h
      · injection h with h
        subst h
        exact ⟨by simp [PresReg], rfl, rfl⟩
      · rw [bindOk] at h
        obtain ⟨vals, -, h⟩ := h
        injection h with h
        subst h
        exact ⟨by simp [PresReg], rfl, rfl⟩
    · rw [bindOk] at h
      obtain ⟨vals, -, h⟩ := h
      split at h
      · injection h with h
        subst h
        exact ⟨by simp [PresReg], rfl, rfl⟩
      · rw [bindOk] at h
        obtain ⟨vals2, -, h⟩ := h
        injection h with h
        subst h
        exact ⟨by simp [PresReg], rfl, rfl⟩

theorem ensure_file_presReg {e e2 : Engine} {fid : Nat} {iv : Interval} {rc : Nat}
    (h : e.ensure_file fid iv = .ok (rc, e2)) : PresReg e e2 := by
  simp only [Engine.ensure_file, pure_bind] at h
  split at h
  · injection h with h
    injection h with h1 h2
    subst h2
    simp [PresReg]
  · split at h
    · exact absurd h (by simp)
    · split at h
      · split at h
        · injection h with h
          injection h with h1 h2
          subst h2
          simp [PresReg]
        · rw [bindOk] at h
          obtain ⟨r, -, h⟩ := h
          injection h with h
          injection h with h1 h2
          subst h2
          simp [PresReg]
      · rw [bindOk] at h
        obtain ⟨r, -, h⟩ := h
        split at h
        · injection h with h
          injection h with h1 h2
          subst h2
          simp [PresReg]
        · rw [bindOk] at h
          obtain ⟨r2, -, h⟩ := h
          injection h with h
          injection h with h1 h2
          subst h2
          simp [PresReg]

theorem presFile_trans {a b c : Engine} (h1 : PresFile a b) (h2 : PresFile b c) :
    PresFile a c :=
  ⟨h2.1.trans h1.1, h2.2.trans h1.2⟩

theorem okBind {α β : Type} (a : α) (k : α → Except Err β) :
    ((Except.ok a : Except Err α) >>= k) = k a := rfl

theorem errBind {α β : Type} (err : Err) (k : α → Except Err β) :
    ((Except.error err : Except Err α) >>= k) = .error err := rfl

theorem takeBatchSteps_presReg {rt : LuaRt} :
    ∀ {steps : List Id} {e : Engine} {cov batch : Interval} {r},
      Engine.takeBatchSteps rt e cov batch steps = .ok r → PresReg e r.1 := by
  intro steps
  induction steps with
  | nil =>
    intro e cov batch r h
    simp only [Engine.takeBatchSteps] at h
    injection h with h
    subst h
    exact presReg_refl e
  | cons step rest ih =>
    intro e cov batch r h
    cases step with
    | file fid =>
      simp only [Engine.takeBatchSteps] at h
      rw [bindOk] at h
      obtain ⟨r1, h1, h⟩ := h
      obtain ⟨rc, e2⟩ := r1
      split at h
      · injection h with h
        subst h
        exact ensure_file_presReg h1
      · exact presReg_trans (ensure_file_presReg h1) (ih h)
    | distinct did =>
      simp only [Engine.takeBatchSteps] at h
      rw [bindOk] at h
      obtain ⟨t?, -, h⟩ := h
      cases t? with
      | none => exact absurd h (by simp)
      | some tid =>
        rw [bindOk] at h
        obtain ⟨e2, h2, h⟩ := h
        exact presReg_trans (ensure_distinct_pres h2).1 (ih h)
    | filter filid =>
      simp only [Engine.takeBatchSteps] at h
      rw [bindOk] at h
      obtain ⟨t?, -, h⟩ := h
      cases t? with
      | none => exact absurd h (by simp)
      | some tid =>
        rw [bindOk] at h
        obtain ⟨e2, h2, h⟩ := h
        exact presReg_trans (ensure_filter_pres h2).1 (ih h)
    | tag tid =>
      simp only [Engine.takeBatchSteps] at h
      split at h
      · exact absurd h (by simp)
      · rw [bindOk] at h
        obtain ⟨e2, h2, h⟩ := h
        exact presReg_trans (ensure_tag_pres h2).1 (ih h)

theorem takeLoop_presReg {rt : LuaRt} {steps : List Id} {count : Nat} :
    ∀ {fuel : Nat} {e : Engine} {cov : Interval} {ri : RI} {r},
      Engine.takeLoop rt steps count fuel e cov ri = .ok r → PresReg e r.1 := by
  intro fuel
  induction fuel with
  | zero =>
    intro e cov ri r h
    exact absurd h (by simp [Engine.takeLoop])
  | succ n ih =>
    intro e cov ri r h
    simp only [Engine.takeLoop] at h
    rw [bindOk] at h
    obtain ⟨br, hbr, h⟩ := h
    split at h
    · injection h with h
      subst h
      exact takeBatchSteps_presReg hbr
    · split at h
      · exact absurd h (by simp)
      · rw [bindOk] at h
        obtain ⟨c, -, h⟩ := h
        split at h
        · injection h with h
          subst h
          exact takeBatchSteps_presReg hbr
        · exact presReg_trans (takeBatchSteps_presReg hbr) (ih h)

theorem ensureTagsGo_pres {rt : LuaRt} {fid : Nat} {iv : Interval} :
    ∀ {ts : List Nat} {e e2 : Engine},
      ensureTagsGo rt fid iv ts e = .ok e2 → PresReg e e2 ∧ PresFile e e2 := by
  intro ts
  induction ts with
  | nil =>
    intro e e2 h
    simp only [ensureTagsGo] at h
    injection h with h
    subst h
    exact ⟨presReg_refl e, rfl, rfl⟩
  | cons t rest ih =>
    intro e e2 h
    simp only [ensureTagsGo] at h
    rw [bindOk] at h
    obtain ⟨e1, h1, h⟩ := h
    obtain ⟨hr1, hf1⟩ := ensure_tag_pres h1
    obtain ⟨hr2, hf2⟩ := ih h
    exact ⟨presReg_trans hr1 hr2, presFile_trans hf1 hf2⟩

theorem take_presReg {e : Engine} {rt : LuaRt} {sh : Sh} {p : Plan} {count : Nat} {r}
    (h : e.take rt sh p count = .ok r) : PresReg e r.2 := by
  simp only [Engine.take] at h
  rw [bindOk] at h
  obtain ⟨r1, h1, h⟩ := h
  rw [bindOk] at h
  obtain ⟨fid, -, h⟩ := h
  rw [bindOk] at h
  obtain ⟨e3, h3, h⟩ := h
  rw [bindOk] at h
  obtain ⟨lines, -, h⟩ := h
  rw [bindOk] at h
  obtain ⟨tags, -, h⟩ := h
  rw [bindOk] at h
  obtain ⟨c1, -, h⟩ := h
  rw [bindOk] at h
  obtain ⟨c2, -, h⟩ := h
  rw [bindOk] at h
  obtain ⟨results, -, h⟩ := h
  injection h with h
  subst h
  exact presReg_trans (takeLoop_presReg h1)
    (ensureTagsGo_pres (by simpa [Engine.ensure_all_tags] using h3)).1

theorem sh_eq_of_perm_short {sh : Sh} (hp : ∀ l, (sh l).Perm l) :
    ∀ l : List Nat, l.length ≤ 1 → sh l = l := by
  intro l hl
  match l, hl with
  | [], _ => exact (hp []).eq_nil
  | [a], _ => exact List.perm_singleton.mp (hp [a])

theorem file_to_tags_len_le (e : Engine) (sh : Sh) (fid : Nat)
    (hp : ∀ l, (sh l).Perm l) :
    (e.file_to_tags sh fid).length ≤ e.tag_to_file.length := by
  calc (e.file_to_tags sh fid).length
      = ((e.tag_to_file.filter (fun kv => kv.2 == fid)).map (fun kv => kv.1)).length :=
        (hp _).length_eq
    _ ≤ e.tag_to_file.length := by
        rw [List.length_map]
        exact List.length_filter_le _ _

theorem file_to_tags_congr {e : Engine} {sh1 sh2 : Sh} {fid : Nat}
    (hp1 : ∀ l, (sh1 l).Perm l) (hp2 : ∀ l, (sh2 l).Perm l)
    (hlen : e.tag_to_file.length ≤ 1) :
    e.file_to_tags sh1 fid = e.file_to_tags sh2 fid := by
  have hb : ((e.tag_to_file.filter (fun kv => kv.2 == fid)).map (fun kv => kv.1)).length ≤ 1 := by
    rw [List.length_map]
    exact le_trans (List.length_filter_le _ _) hlen
  unfold Engine.file_to_tags
  rw [sh_eq_of_perm_short hp1 _ hb, sh_eq_of_perm_short hp2 _ hb]

theorem take_sh_congr {e : Engine} {rt : LuaRt} {sh1 sh2 : Sh} {p : Plan} {count : Nat}
    (hp1 : ∀ l, (sh1 l).Perm l) (hp2 : ∀ l, (sh2 l).Perm l)
    (hlen : e.tag_to_file.length ≤ 1) :
    e.take rt sh1 p count = e.take rt sh2 p count := by
  unfold Engine.take
  cases htl : Engine.takeLoop rt p.steps count (e.takeFuel p.steps) e ⟨0, 0⟩
      (RI.new count MAX_BATCH_SIZE) with
  | error err => rw [errBind, errBind]
  | ok r1 =>
    rw [okBind, okBind]
    cases hfid : p.file_id with
    | error err => rw [errBind, errBind]
    | ok fid =>
      rw [okBind, okBind]
      have hreg1 := takeLoop_presReg htl
      have hlen1 : r1.1.tag_to_file.length ≤ 1 := by rw [hreg1.2.2.1]; exact hlen
      have hall : r1.1.ensure_all_tags rt sh1 fid r1.2 = r1.1.ensure_all_tags rt sh2 fid r1.2 := by
        unfold Engine.ensure_all_tags
        rw [file_to_tags_congr hp1 hp2 hlen1]
      rw [hall]
      cases hat : r1.1.ensure_all_tags rt sh2 fid r1.2 with
      | error err => rw [errBind, errBind]
      | ok e3 =>
        rw [okBind, okBind]
        have hreg3 := (ensureTagsGo_pres (by simpa [Engine.ensure_all_tags] using hat)).1
        have hlen3 : e3.tag_to_file.length ≤ 1 := by rw [hreg3.2.2.1]; exact hlen1
        have hrat : e3.read_all_tags sh1 fid r1.2 = e3.read_all_tags sh2 fid r1.2 := by
          unfold Engine.read_all_tags
          rw [file_to_tags_congr hp1 hp2 hlen3]
        rw [hrat]

theorem run_command_sh_congr {e : Engine} {rt : LuaRt} {sh1 sh2 : Sh} {c : Command}
    (hp1 : ∀ l, (sh1 l).Perm l) (hp2 : ∀ l, (sh2 l).Perm l)
    (hlen : e.tag_to_file.length ≤ 1) :
    e.run_command rt sh1 c = e.run_command rt sh2 c := by
  cases c with
  | take id count =>
    simp only [Engine.run_command]
    cases hp : e.plan id with
    | error err => rw [errBind, errBind]
    | ok p =>
      rw [okBind, okBind]
      rw [take_sh_congr hp1 hp2 hlen]
  | load path bytes => rfl
  | script src => rfl
  | tag fid tag_name => rfl
  | regex tid rx => rfl
  | transform tid src => rfl
  | directFilter parent comp value => rfl
  | scriptedFilter parent test => rfl
  | distinct parent => rfl
  | group parent => rfl

/-- The number of tag registrations a command contributes. -/
def cmdTagInc (c : Command) : Nat :=
  match c with
  | .tag _ _ => 1
  | _ => 0

/-- The number of `Tag` commands in a sequence. -/
def tagCmdCount : List Command → Nat
  | [] => 0
  | c :: rest => cmdTagInc c + tagCmdCount rest

theorem insertM_length_le {α : Type} (m : MapL α) (k : Nat) (v : α) :
    (insertM m k v).length ≤ m.length + 1 := by
  induction m with
  | nil => simp [insertM]
  | cons kv rest ih =>
    by_cases h : kv.1 = k
    · simp only [insertM, h, beq_self_eq_true, if_true, List.length_cons]
      omega
    · simp only [insertM, h, beq_iff_eq, if_false, List.length_cons]
      omega

theorem run_command_ttf_len {e : Engine} {rt : LuaRt} {sh : Sh} {c : Command} {r}
    (h : e.run_command rt sh c = .ok r) :
    r.2.tag_to_file.length ≤ e.tag_to_file.length + cmdTagInc c := by
  cases c with
  | load path bytes =>
    injection h with h
    subst h
    simp [cmdTagInc]
  | script src =>
    simp only [Engine.run_command] at h
    split at h
    · injection h with h
      subst h
      simp [cmdTagInc]
    · exact absurd h (by simp)
  | tag fid tag_name =>
    injection h with h
    subst h
    simp only [cmdTagInc]
    exact insertM_length_le _ _ _
  | regex tid rx =>
    simp only [Engine.run_command] at h
    split at h
    · exact absurd h (by simp)
    · injection h with h
      subst h
      simp [cmdTagInc]
  | transform tid src =>
    simp only [Engine.run_command] at h
    split at h
    · exact absurd h (by simp)
    · injection h with h
      subst h
      simp [cmdTagInc]
  | directFilter parent comp value =>
    injection h with h
    subst h
    simp [cmdTagInc]
  | scriptedFilter parent test =>
    injection h with h
    subst h
    simp [cmdTagInc]
  | distinct parent =>
    injection h with h
    subst h
    simp [cmdTagInc]
  | group parent => exact absurd h (by simp [Engine.run_command])
  | take id count =>
    simp only [Engine.run_command] at h
    rw [bindOk] at h
    obtain ⟨p, -, h⟩ := h
    rw [bindOk] at h
    obtain ⟨r1, h1, h⟩ := h
    injection h with h
    subst h
    simp only [cmdTagInc]
    rw [(take_presReg h1).2.2.1]
    omega

/-- C10: registering a `DirectFilter`, `ScriptedFilter`, or `Distinct` always
succeeds, returns the fresh identifier `last_id + 1`, and records the supplied
parent identifier verbatim — for any parent whatsoever, registered or not; no
validation of the parent chain happens at registration time. -/
theorem registration_unchecked (e : Engine) (rt : LuaRt) (sh : Sh) (parent : Id)
    (comp : Comparator) (value test : Str) :
    e.run_command rt sh (.directFilter parent comp value) =
      .ok (OutputM.with_message (some (.filter (e.last_id + 1)))
            (strLit "filter loaded: " ++ natStr (e.last_id + 1)),
          { e with last_id := e.last_id + 1,
                   filters := insertM e.filters (e.last_id + 1) (.direct comp value),
                   filter_to_parent := insertM e.filter_to_parent (e.last_id + 1) parent }) ∧
    e.run_command rt sh (.scriptedFilter parent test) =
      .ok (OutputM.with_message (some (.filter (e.last_id + 1)))
            (strLit "filter loaded: " ++ natStr (e.last_id + 1)),
          { e with last_id := e.last_id + 1,
                   filters := insertM e.filters (e.last_id + 1) (.scripted test),
                   filter_to_parent := insertM e.filter_to_parent (e.last_id + 1) parent }) ∧
    e.run_command rt sh (.distinct parent) =
      .ok (OutputM.with_message (some (.distinct (e.last_id + 1)))
            (strLit "distinct loaded: " ++ natStr (e.last_id + 1)),
          { e with last_id := e.last_id + 1,
                   distinct_to_parent := insertM e.distinct_to_parent (e.last_id + 1) parent }) :=
  ⟨rfl, rfl, rfl⟩

/-- C9 counterexample: a `Take` whose plan references unregistered identifiers
is not always rejected with a surfaced error. On a fresh engine,
`Take(File 1, 0)` for the unregistered `File 1` succeeds and even produces
(empty) output, and a `Take` on a distinct node whose parent chain reaches the
unregistered `Tag 99` aborts with a panic (a `HashMap` index), not with a
surfaced error identifying the offender. -/
theorem take_unknown_id_not_rejected :
    (Engine.new.run_command rtDet shId (.take (.file 1) 0)).toOption.map
        (fun r => r.1.lines) = some [] ∧
    Engine.run_command
      { Engine.new with last_id := 1, distinct_to_parent := [(1, Id.tag 99)] }
      rtDet shId (.take (.distinct 1) 1) = .error .panicked :=
  ⟨rfl, rfl⟩

/-- C7 counterexample: with a scripted filter whose predicate fails on the tag
value of line 0, the enclosing `Take` does not succeed: the evaluation failure
propagates (the `?` on `test_chunk` in `Engine::filter_values`) and the
command aborts with a script error, producing no output. -/
theorem scripted_filter_failure_aborts_take :
    eC7.run_command rtDet shId (.take (.filter 3) 1) = .error .luaErr := rfl

/-- C2, evaluated at a failing input: after `Load; Take(F,1); Take(F,2)` on the
file `"a\nb\nc\n"`, the file cache holds `"\n"` at slot 1 (its `start` is 0),
but line 1 of the file is `"b\n"`: the cached entry dropped the leading byte,
because `File::read` records `self.index = idx` before reading (off by one), so
the second read seeks one byte forward from the reader position. -/
theorem fileCache_invariant_violated :
    (getM (runCommands rtDet shId Engine.new c2cmds).2.file_caches 1).map
        (fun c => (c.start, c.loaded)) = some (0, [strLit "a\n", strLit "\n"]) ∧
    fileLines (strLit "a\nb\nc\n") = [strLit "a\n", strLit "b\n", strLit "c\n"] ∧
    (strLit "\n" : Str) ≠ strLit "b\n" :=
  ⟨rfl, rfl, by decide⟩

/-- C6, evaluated at a failing input: two consecutive `Take(Filter 3, 1)`
commands with no command in between return different output — the first
renders the surviving record, the second returns no lines at all, because its
batch loop breaks on the first (1-line) batch: the leaf check counts all bits
of the filter cache (including bit 1, outside the new 1-line covered
interval), so rendering walks only line 0 and finds no survivor there. -/
theorem take_not_idempotent :
    (runCommands rtDet shId Engine.new c6cmds).1.get? 3 =
      some (.ok ⟨none, [strLit "X\n", fmtTagLine (strLit "t") (some (strLit "X\n")), []]⟩) ∧
    (runCommands rtDet shId Engine.new c6cmds).1.get? 4 = some (.ok ⟨none, []⟩) ∧
    ([strLit "X\n", fmtTagLine (strLit "t") (some (strLit "X\n")), []] : List Str) ≠ [] :=
  ⟨rfl, rfl, by decide⟩

/-- C8 counterexample: the same file contents and command sequence (a file,
two tags, one `Take`), with the engine's tag map enumerated in two orders that
a `HashMap` may legitimately produce across runs, yield different output: the
per-line tag annotation blocks appear in different tag orders. -/
instance : DecidableEq (Except Err OutputM) := fun a b =>
  match a, b with
  | .ok x, .ok y => decidable_of_iff (x = y) (by simp)
  | .ok _, .error _ => isFalse (by simp)
  | .error _, .ok _ => isFalse (by simp)
  | .error x, .error y => decidable_of_iff (x = y) (by simp)

theorem output_depends_on_tag_order :
    (runCommands rtDet shId Engine.new c8cmds).1 ≠
      (runCommands rtDet shRev Engine.new c8cmds).1 := by decide

/-- C8 amended: with the same file contents and command sequence and a
deterministic scripting runtime, two runs produce identical output provided
they enumerate each file's tags in the same order; the tag order is forced —
and the output hence byte-identical — whenever the sequence registers at most
one tag. With two or more tags the `HashMap` iteration order is unspecified
and the per-record tag annotation blocks may appear in different orders. -/
theorem output_deterministic_given_tag_order {rt : LuaRt} {sh1 sh2 : Sh}
    (hp1 : ∀ l, (sh1 l).Perm l) (hp2 : ∀ l, (sh2 l).Perm l) :
    ∀ (cmds : List Command) (e : Engine),
      e.tag_to_file.length + tagCmdCount cmds ≤ 1 →
      runCommands rt sh1 e cmds = runCommands rt sh2 e cmds := by
  intro cmds
  induction cmds with
  | nil => intro e h; rfl
  | cons c rest ih =>
    intro e hle
    have hinc : 0 ≤ cmdTagInc c := Nat.zero_le _
    have hc1 : e.tag_to_file.length ≤ 1 := by
      simp only [tagCmdCount] at hle
      omega
    have hcmd := @run_command_sh_congr e rt sh1 sh2 c hp1 hp2 hc1
    simp only [runCommands]
    rw [hcmd]
    cases hr : e.run_command rt sh2 c with
    | error err =>
      dsimp only
      rw [ih e (by simp only [tagCmdCount] at hle; omega)]
    | ok rr =>
      dsimp only
      rw [ih rr.2 (by
        have := run_command_ttf_len hr
        simp only [tagCmdCount] at hle
        omega)]

/-- Closed instance of the amended C8 theorem: a one-tag command sequence run
under the identity and the reversed tag iteration orders gives identical
results. -/
theorem output_deterministic_given_tag_order_witness :
    runCommands rtDet shId Engine.new
        [.load (strLit "f") (strLit "x\n"), .tag 1 (strLit "a"), .take (.file 1) 1] =
      runCommands rtDet shRev Engine.new
        [.load (strLit "f") (strLit "x\n"), .tag 1 (strLit "a"), .take (.file 1) 1] :=
  output_deterministic_given_tag_order (fun l => List.Perm.refl l)
    (fun l => List.reverse_perm l)
    [.load (strLit "f") (strLit "x\n"), .tag 1 (strLit "a"), .take (.file 1) 1]
    Engine.new (by decide)

/-- A runtime whose predicate evaluations all succeed with `true`. -/
def rtTrue : LuaRt := ⟨fun _ _ => none, fun _ _ => some true, fun _ => true⟩

theorem filterScriptedGo_spec (rt : LuaRt) (script : Str) (start : Nat) :
    ∀ (values : List (Option Str)) (idx : Nat),
      ((∃ j v, values.get? j = some (some v) ∧ rt.evalB script v = none) →
        filterScriptedGo rt script start values idx = .error .luaErr) ∧
      ((∀ j v, values.get? j = some (some v) → rt.evalB script v ≠ none) →
        ∃ S, filterScriptedGo rt script start values idx = .ok S ∧
          ∀ i, i ∈ S ↔ ∃ j v, values.get? j = some (some v) ∧
            rt.evalB script v = some true ∧ i = start + idx + j) := by
  intro values
  induction values with
  | nil =>
    intro idx
    constructor
    · rintro ⟨j, v, hj, -⟩
      simp at hj
    · intro _
      refine ⟨∅, rfl, ?_⟩
      intro i
      simp
  | cons v? rest ih =>
    intro idx
    cases v? with
    | none =>
      constructor
      · rintro ⟨j, v, hj, hv⟩
        cases j with
        | zero => simp at hj
        | succ j2 =>
          simp only [List.get?_cons_succ] at hj
          simp only [filterScriptedGo]
          exact (ih (idx + 1)).1 ⟨j2, v, hj, hv⟩
      · intro hok
        obtain ⟨S, hS, hiff⟩ := (ih (idx + 1)).2 (fun j v hj => hok (j + 1) v (by simpa using hj))
        refine ⟨S, by simpa [filterScriptedGo] using hS, ?_⟩
        intro i
        rw [hiff]
        constructor
        · rintro ⟨j, v, hj, hv, hi⟩
          exact ⟨j + 1, v, by simpa using hj, hv, by omega⟩
        · rintro ⟨j, v, hj, hv, hi⟩
          cases j with
          | zero => simp at hj
          | succ j2 =>
            simp only [List.get?_cons_succ] at hj
            exact ⟨j2, v, hj, hv, by omega⟩
    | some value =>
      cases he : rt.evalB script value with
      | none =>
        constructor
        · intro _
          simp [filterScriptedGo, test_chunk, he, errBind]
        · intro hok
          exact absurd he (hok 0 value (by simp))
      | some b =>
        constructor
        · rintro ⟨j, v, hj, hv⟩
          cases j with
          | zero =>
            simp only [List.get?_cons_zero, Option.some.injEq] at hj
            rw [← hj] at hv
            rw [hv] at he
            exact absurd he (by simp)
          | succ j2 =>
            simp only [List.get?_cons_succ] at hj
            have hrec := (ih (idx + 1)).1 ⟨j2, v, hj, hv⟩
            simp [filterScriptedGo, test_chunk, he, okBind, hrec, errBind]
        · intro hok
          obtain ⟨S, hS, hiff⟩ := (ih (idx + 1)).2 (fun j v hj => hok (j + 1) v (by simpa using hj))
          refine ⟨if b then insert (start + idx) S else S,
            by simp [filterScriptedGo, test_chunk, he, okBind, hS], ?_⟩
          intro i
          cases b with
          | true =>
            rw [if_pos rfl]
            simp only [Finset.mem_insert, hiff]
            constructor
            · rintro (hi | ⟨j, v, hj, hv, hi⟩)
              · exact ⟨0, value, by simp, he, by omega⟩
              · exact ⟨j + 1, v, by simpa using hj, hv, by omega⟩
            · rintro ⟨j, v, hj, hv, hi⟩
              cases j with
              | zero => left; omega
              | succ j2 =>
                right
                simp only [List.get?_cons_succ] at hj
                exact ⟨j2, v, hj, hv, by omega⟩
          | false =>
            rw [if_neg (by simp)]
            rw [hiff]
            constructor
            · rintro ⟨j, v, hj, hv, hi⟩
              exact ⟨j + 1, v, by simpa using hj, hv, by omega⟩
            · rintro ⟨j, v, hj, hv, hi⟩
              cases j with
              | zero =>
                simp only [List.get?_cons_zero, Option.some.injEq] at hj
                rw [← hj] at hv
                rw [hv] at he
                simp at he
              | succ j2 =>
                simp only [List.get?_cons_succ] at hj
                exact ⟨j2, v, hj, hv, by omega⟩

/-- C7 amended: for a scripted filter, a predicate-script evaluation failure on
any non-null tag value is fatal, not value-local: `filter_values` (and with it
the enclosing `ensure_filter` and `Take`) aborts with a script error and
produces nothing. Null tag values, by contrast, are skipped without error, and
when every evaluation succeeds the resulting bitset holds exactly the indices
whose value tests `true`. -/
theorem scripted_filter_failure_fatal (rt : LuaRt) (script : Str)
    (values : List (Option Str)) (start : Nat) :
    ((∃ j v, values.get? j = some (some v) ∧ rt.evalB script v = none) →
      filter_values rt (.scripted script) values start = .error .luaErr) ∧
    ((∀ j v, values.get? j = some (some v) → rt.evalB script v ≠ none) →
      ∃ S, filter_values rt (.scripted script) values start = .ok S ∧
        ∀ i, i ∈ S ↔ ∃ j v, values.get? j = some (some v) ∧
          rt.evalB script v = some true ∧ i = start + j) := by
  have hgo := filterScriptedGo_spec rt script start values 0
  constructor
  · intro hex
    simpa [filter_values] using hgo.1 hex
  · intro hok
    obtain ⟨S, hS, hiff⟩ := hgo.2 hok
    refine ⟨S, by simpa [filter_values] using hS, ?_⟩
    intro i
    rw [hiff]
    constructor
    · rintro ⟨j, v, hj, hv, hi⟩
      exact ⟨j, v, hj, hv, by omega⟩
    · rintro ⟨j, v, hj, hv, hi⟩
      exact ⟨j, v, hj, hv, by omega⟩

/-- Closed instance of the amended C7 theorem: a failing predicate aborts
`filter_values` with a script error, and with an always-true predicate the
null value is skipped while index 0 is kept. -/
theorem scripted_filter_failure_fatal_witness :
    filter_values rtDet (.scripted (strLit "b")) [some [97]] 0 = .error .luaErr ∧
    ∃ S, filter_values rtTrue (.scripted (strLit "b")) [some [97], none] 0 = .ok S ∧
      ∀ i, i ∈ S ↔ ∃ j v, ([some [97], none] : List (Option Str)).get? j = some (some v) ∧
        rtTrue.evalB (strLit "b") v = some true ∧ i = 0 + j := by
  constructor
  · exact (scripted_filter_failure_fatal rtDet (strLit "b") [some [97]] 0).1
      ⟨0, [97], rfl, rfl⟩
  · exact (scripted_filter_failure_fatal rtTrue (strLit "b") [some [97], none] 0).2
      (fun j v hj => by simp [rtTrue])

theorem plan_tag_none {e : Engine} {t : Nat} (h : getM e.tag_to_file t = none) :
    e.plan (.tag t) = .error .panicked := by
  have h2 : e.plan_steps (e.last_id + 1 + 1) (.tag t) = .error .panicked := by
    simp [Engine.plan_steps, h]
  unfold Engine.plan
  rw [show e.last_id + 2 = e.last_id + 1 + 1 from rfl, h2, errBind]

theorem plan_distinct_none {e : Engine} {d : Nat} (h : getM e.distinct_to_parent d = none) :
    e.plan (.distinct d) = .error .panicked := by
  have h2 : e.plan_steps (e.last_id + 1 + 1) (.distinct d) = .error .panicked := by
    simp [Engine.plan_steps, h]
  unfold Engine.plan
  rw [show e.last_id + 2 = e.last_id + 1 + 1 from rfl, h2, errBind]

theorem plan_filter_none {e : Engine} {fl : Nat} (h : getM e.filter_to_parent fl = none) :
    e.plan (.filter fl) = .error .panicked := by
  have h2 : e.plan_steps (e.last_id + 1 + 1) (.filter fl) = .error .panicked := by
    simp [Engine.plan_steps, h]
  unfold Engine.plan
  rw [show e.last_id + 2 = e.last_id + 1 + 1 from rfl, h2, errBind]

theorem plan_file (e : Engine) (f : Nat) : e.plan (.file f) = .ok ⟨[.file f]⟩ := by
  have h2 : e.plan_steps (e.last_id + 1 + 1) (.file f) = .ok [.file f] := by
    simp [Engine.plan_steps]
  unfold Engine.plan
  rw [show e.last_id + 2 = e.last_id + 1 + 1 from rfl, h2, okBind]

theorem contains_zero_iv (m : Nat) (hm : m ≠ 0) :
    Interval.contains ⟨0, 0⟩ ⟨0, m⟩ = false := by
  have hm2 : 0 < m := Nat.pos_of_ne_zero hm
  simp [Interval.contains, Interval.is_empty, Interval.missing_before,
    Interval.missing_after, hm, Ne.symm hm, hm2]

theorem ensure_file_unknown {e : Engine} {f : Nat} {m : Nat}
    (h1 : getM e.files f = none) (h2 : getM e.file_caches f = none) (hm : m ≠ 0) :
    e.ensure_file f ⟨0, m⟩ = .error (.fileNotLoaded f) := by
  unfold Engine.ensure_file
  rw [h2]
  have hb : (FileCache.empty.bounds) = (⟨0, 0⟩ : Interval) := rfl
  simp only [Option.getD, hb, contains_zero_iv m hm, Bool.false_eq_true, if_false]
  have he1 : ({ e with file_caches := insertM e.file_caches f FileCache.empty }).files
      = e.files := rfl
  rw [he1, h1]

theorem take_file_unknown {e : Engine} {rt : LuaRt} {sh : Sh} {f n : Nat}
    (h1 : getM e.files f = none) (h2 : getM e.file_caches f = none) (hn : 1 ≤ n) :
    e.run_command rt sh (.take (.file f) n) = .error (.fileNotLoaded f) := by
  have hmin : 0 + Nat.min n 1024 ≠ 0 := by
    have : 1 ≤ Nat.min n 1024 := Nat.le_min.mpr ⟨hn, by omega⟩
    omega
  have hef : e.ensure_file f ⟨0, 0 + Nat.min n 1024⟩ = .error (.fileNotLoaded f) :=
    ensure_file_unknown h1 h2 hmin
  have htbs : Engine.takeBatchSteps rt e ⟨0, 0⟩ ⟨0, 0 + Nat.min n 1024⟩ [.file f]
      = .error (.fileNotLoaded f) := by
    simp only [Engine.takeBatchSteps]
    rw [hef, errBind]
  have hfuel : e.takeFuel [.file f] = 2 := by
    simp [Engine.takeFuel, h1, h2, FileCache.empty]
  have hloop : Engine.takeLoop rt [.file f] n 2 e ⟨0, 0⟩ (RI.new n MAX_BATCH_SIZE)
      = .error (.fileNotLoaded f) := by
    rw [show (2 : Nat) = 1 + 1 from rfl]
    simp only [Engine.takeLoop, RI.step, RI.new, MAX_BATCH_SIZE]
    rw [htbs, errBind]
  simp only [Engine.run_command]
  rw [plan_file e f, okBind]
  unfold Engine.take
  rw [hfuel, hloop]
  rfl

/-- C9 amended: a `Take` whose leaf is an unregistered `File` identifier is
rejected with the surfaced `FileNotLoaded` error when `N ≥ 1` (but succeeds
vacuously with empty output when `N = 0`); a `Take` whose leaf or parent chain
reaches an unregistered `Tag`, `Distinct`, or `Filter` identifier aborts by
panic (a `HashMap` index in `plan_steps`), not with a surfaced error. In every
failing case the command produces no output. -/
theorem take_unknown_id_behavior :
    (∀ (e : Engine) (rt : LuaRt) (sh : Sh) (f n : Nat),
      getM e.files f = none → getM e.file_caches f = none → 1 ≤ n →
      e.run_command rt sh (.take (.file f) n) = .error (.fileNotLoaded f)) ∧
    (∀ (e : Engine) (rt : LuaRt) (sh : Sh) (t n : Nat),
      getM e.tag_to_file t = none →
      e.run_command rt sh (.take (.tag t) n) = .error .panicked) ∧
    (∀ (e : Engine) (rt : LuaRt) (sh : Sh) (d n : Nat),
      getM e.distinct_to_parent d = none →
      e.run_command rt sh (.take (.distinct d) n) = .error .panicked) ∧
    (∀ (e : Engine) (rt : LuaRt) (sh : Sh) (fl n : Nat),
      getM e.filter_to_parent fl = none →
      e.run_command rt sh (.take (.filter fl) n) = .error .panicked) := by
  refine ⟨fun e rt sh f n h1 h2 hn => take_file_unknown h1 h2 hn, ?_, ?_, ?_⟩
  · intro e rt sh t n h
    simp only [Engine.run_command]
    rw [plan_tag_none h]
    rfl
  · intro e rt sh d n h
    simp only [Engine.run_command]
    rw [plan_distinct_none h]
    rfl
  · intro e rt sh fl n h
    simp only [Engine.run_command]
    rw [plan_filter_none h]
    rfl

/-- Closed instance of the amended C9 theorem on a fresh engine. -/
theorem take_unknown_id_behavior_witness :
    Engine.new.run_command rtDet shId (.take (.file 5) 1) = .error (.fileNotLoaded 5) ∧
    Engine.new.run_command rtDet shId (.take (.tag 7) 1) = .error .panicked ∧
    Engine.new.run_command rtDet shId (.take (.distinct 8) 2) = .error .panicked ∧
    Engine.new.run_command rtDet shId (.take (.filter 9) 3) = .error .panicked :=
  ⟨take_unknown_id_behavior.1 Engine.new rtDet shId 5 1 rfl rfl (by decide),
   take_unknown_id_behavior.2.1 Engine.new rtDet shId 7 1 rfl,
   take_unknown_id_behavior.2.2.1 Engine.new rtDet shId 8 2 rfl,
   take_unknown_id_behavior.2.2.2 Engine.new rtDet shId 9 3 rfl⟩

/-- The tag value of one line as the specification words it: no regex match
(or a match without capture group 1) gives `None`; a match gives group 1
through the transform when one is set; without a regex the whole line goes
through the transform; a failing transform gives `None`. -/
def specTagValue (rt : LuaRt) (tag : Tag) (line : Str) : Option Str :=
  match tag.regex with
  | some rx =>
    match rx line with
    | none => none
    | some none => none
    | some (some g1) =>
      match tag.transform with
      | some src => rt.evalS src g1
      | none => some g1
  | none =>
    match tag.transform with
    | some src => rt.evalS src line
    | none => some line

/-- C4: `parse_tag_from_lines` computes, line by line, exactly the value the
specification describes; in particular a transform failure yields `None` for
that line only — the function is total (it returns no `Result`), so no
command-level error can arise from tag parsing. -/
theorem tag_parse_semantics (rt : LuaRt) (tag : Tag) (lines : List Str) :
    parse_tag_from_lines rt tag lines = lines.map (specTagValue rt tag) := by
  unfold parse_tag_from_lines
  refine List.map_congr_left ?_
  intro line _
  cases hr : tag.regex with
  | none =>
    cases ht : tag.transform with
    | none => simp [transform_chunk, Except.toOption, specTagValue, hr, ht]
    | some src =>
      cases he : rt.evalS src line with
      | none => simp [transform_chunk, Except.toOption, specTagValue, hr, ht, he]
      | some s => simp [transform_chunk, Except.toOption, specTagValue, hr, ht, he]
  | some rx =>
    cases hx : rx line with
    | none => simp [specTagValue, Except.toOption, hr, hx]
    | some g1 =>
      cases g1 with
      | none => simp [specTagValue, Except.toOption, hr, hx]
      | some m =>
        cases ht : tag.transform with
        | none => simp [transform_chunk, Except.toOption, specTagValue, hr, hx, ht]
        | some src =>
          cases he : rt.evalS src m with
          | none => simp [transform_chunk, Except.toOption, specTagValue, hr, hx, ht, he]
          | some s => simp [transform_chunk, Except.toOption, specTagValue, hr, hx, ht, he]

theorem strCmp_eq_iff : ∀ a b : Str, strCmp a b = .eq ↔ a = b := by
  intro a
  induction a with
  | nil =>
    intro b
    cases b <;> simp [strCmp]
  | cons x xs ih =>
    intro b
    cases b with
    | nil => simp [strCmp]
    | cons y ys =>
      by_cases h1 : x < y
      · simp only [strCmp, if_pos h1]
        constructor
        · intro h; exact absurd h (by simp)
        · rintro h
          injection h with h2 h3
          omega
      · by_cases h2 : y < x
        · simp only [strCmp, if_neg h1, if_pos h2]
          constructor
          · intro h; exact absurd h (by simp)
          · rintro h
            injection h with h3 h4
            omega
        · have hxy : x = y := by omega
          subst hxy
          simp only [strCmp, if_neg h1, if_neg h2]
          rw [ih ys]
          simp

theorem strCmp_lt_iff : ∀ a b : Str, strCmp a b = .lt ↔ List.Lex (· < ·) a b := by
  intro a
  induction a with
  | nil =>
    intro b
    cases b with
    | nil => simp [strCmp]
    | cons y ys =>
      simp only [strCmp]
      exact ⟨fun _ => List.Lex.nil, fun _ => trivial⟩

  | cons x xs ih =>
    intro b
    cases b with
    | nil =>
      simp only [strCmp]
      constructor
      · intro h; exact absurd h (by simp)
      · intro h; cases h
    | cons y ys =>
      by_cases h1 : x < y
      · simp only [strCmp, if_pos h1]
        exact ⟨fun _ => List.Lex.rel h1, fun _ => trivial⟩
      · by_cases h2 : y < x
        · simp only [strCmp, if_neg h1, if_pos h2]
          constructor
          · intro h; exact absurd h (by simp)
          · intro h
            cases h with
            | rel hr => omega
            | cons hc => omega
        · have hxy : x = y := by omega
          subst hxy
          simp only [strCmp, if_neg h1, if_neg h2]
          rw [ih ys]
          constructor
          · exact fun h => List.Lex.cons h
          · intro h
            cases h with
            | rel hr => omega
            | cons hc => exact hc

theorem strCmp_swap : ∀ a b : Str, strCmp b a = (strCmp a b).swap := by
  intro a
  induction a with
  | nil =>
    intro b
    cases b <;> simp [strCmp, Ordering.swap]
  | cons x xs ih =>
    intro b
    cases b with
    | nil => simp [strCmp, Ordering.swap]
    | cons y ys =>
      by_cases h1 : x < y
      · have h2 : ¬y < x := by omega
        simp [strCmp, h1, h2, Ordering.swap]
      · by_cases h2 : y < x
        · simp [strCmp, h1, h2, Ordering.swap]
        · simp [strCmp, h1, h2, ih ys]

theorem strCmp_gt_iff (a b : Str) : strCmp a b = .gt ↔ List.Lex (· < ·) b a := by
  rw [← strCmp_lt_iff b a, strCmp_swap b a]
  cases strCmp b a <;> simp [Ordering.swap]

/-- The truth of a direct comparison as the specification words it:
lexicographic ordering of the byte sequences for the inequalities, byte-exact
equality for equality and inequality. -/
def DirectSat (c : Comparator) (v L : Str) : Prop :=
  match c with
  | .equal => v = L
  | .notEqual => v ≠ L
  | .greaterThan => List.Lex (· < ·) L v
  | .greaterThanEqual => List.Lex (· < ·) L v ∨ v = L
  | .lessThan => List.Lex (· < ·) v L
  | .lessThanEqual => List.Lex (· < ·) v L ∨ v = L

theorem ordBeq_iff (o p : Ordering) : (o == p) = true ↔ o = p := by
  cases o <;> cases p <;> decide

theorem ordBne_iff (o p : Ordering) : (o != p) = true ↔ o ≠ p := by
  cases o <;> cases p <;> decide

theorem cmpHolds_iff (c : Comparator) (v L : Str) :
    cmpHolds c v L = true ↔ DirectSat c v L := by
  cases c with
  | equal => simp [cmpHolds, DirectSat]
  | notEqual => simp [cmpHolds, DirectSat]
  | greaterThan =>
    show (strCmp v L == Ordering.gt) = true ↔ List.Lex (· < ·) L v
    rw [ordBeq_iff]
    exact strCmp_gt_iff v L
  | lessThan =>
    show (strCmp v L == Ordering.lt) = true ↔ List.Lex (· < ·) v L
    rw [ordBeq_iff]
    exact strCmp_lt_iff v L
  | greaterThanEqual =>
    show (strCmp v L != Ordering.lt) = true ↔ (List.Lex (· < ·) L v ∨ v = L)
    rw [ordBne_iff]
    cases ho : strCmp v L with
    | lt =>
      constructor
      · intro h
        exact absurd rfl h
      · rintro (h | h)
        · have h2 := (strCmp_gt_iff v L).mpr h
          rw [ho] at h2
          exact absurd h2 (by simp)
        · have h2 := (strCmp_eq_iff v L).mpr h
          rw [ho] at h2
          exact absurd h2 (by simp)
    | eq =>
      constructor
      · intro _
        right
        exact (strCmp_eq_iff v L).mp ho
      · intro _
        simp
    | gt =>
      constructor
      · intro _
        left
        exact (strCmp_gt_iff v L).mp ho
      · intro _
        simp
  | lessThanEqual =>
    show (strCmp v L != Ordering.gt) = true ↔ (List.Lex (· < ·) v L ∨ v = L)
    rw [ordBne_iff]
    cases ho : strCmp v L with
    | gt =>
      constructor
      · intro h
        exact absurd rfl h
      · rintro (h | h)
        · have h2 := (strCmp_lt_iff v L).mpr h
          rw [ho] at h2
          exact absurd h2 (by simp)
        · have h2 := (strCmp_eq_iff v L).mpr h
          rw [ho] at h2
          exact absurd h2 (by simp)
    | eq =>
      constructor
      · intro _
        right
        exact (strCmp_eq_iff v L).mp ho
      · intro _
        simp
    | lt =>
      constructor
      · intro _
        left
        exact (strCmp_lt_iff v L).mp ho
      · intro _
        simp

theorem mem_filterDirectGo (comp : Comparator) (right : Str) (start : Nat) :
    ∀ (values : List (Option Str)) (idx i : Nat),
      i ∈ filterDirectGo comp right start values idx ↔
        ∃ j v, values.get? j = some (some v) ∧ cmpHolds comp v right = true ∧
          i = start + idx + j := by
  intro values
  induction values with
  | nil =>
    intro idx i
    simp [filterDirectGo]
  | cons v? rest ih =>
    intro idx i
    cases v? with
    | none =>
      simp only [filterDirectGo]
      rw [ih (idx + 1) i]
      constructor
      · rintro ⟨j, v, hj, hv, hi⟩
        exact ⟨j + 1, v, by simpa using hj, hv, by omega⟩
      · rintro ⟨j, v, hj, hv, hi⟩
        cases j with
        | zero => simp at hj
        | succ j2 =>
          simp only [List.get?_cons_succ] at hj
          exact ⟨j2, v, hj, hv, by omega⟩
    | some value =>
      simp only [filterDirectGo]
      by_cases hv : cmpHolds comp value right = true
      · rw [if_pos hv]
        simp only [Finset.mem_insert]
        rw [ih (idx + 1) i]
        constructor
        · rintro (hi | ⟨j, v, hj, hcv, hi⟩)
          · exact ⟨0, value, by simp, hv, by omega⟩
          · exact ⟨j + 1, v, by simpa using hj, hcv, by omega⟩
        · rintro ⟨j, v, hj, hcv, hi⟩
          cases j with
          | zero =>
            left
            omega
          | succ j2 =>
            right
            simp only [List.get?_cons_succ] at hj
            exact ⟨j2, v, hj, hcv, by omega⟩
      · rw [if_neg hv]
        rw [ih (idx + 1) i]
        constructor
        · rintro ⟨j, v, hj, hcv, hi⟩
          exact ⟨j + 1, v, by simpa using hj, hcv, by omega⟩
        · rintro ⟨j, v, hj, hcv, hi⟩
          cases j with
          | zero =>
            simp only [List.get?_cons_zero, Option.some.injEq, Option.some.injEq] at hj
            rw [hj] at hv
            exact absurd hcv hv
          | succ j2 =>
            simp only [List.get?_cons_succ] at hj
            exact ⟨j2, v, hj, hcv, by omega⟩

theorem contains_forward_false {st n : Nat} (h : st < n) :
    Interval.contains ⟨0, st⟩ ⟨0, n⟩ = false := by
  have h1 : n ≠ 0 := by omega
  have h2 : st ≠ n := by omega
  simp [Interval.contains, Interval.is_empty, Interval.missing_before,
    Interval.missing_after, Ne.symm h1, h, h2]

theorem contains_forward_true {st n : Nat} (h : n ≤ st) :
    Interval.contains ⟨0, st⟩ ⟨0, n⟩ = true := by
  have h1 : ¬(n > st) := by omega
  simp [Interval.contains, Interval.is_empty, Interval.missing_before,
    Interval.missing_after, h1]

theorem read_tag_eval {e : Engine} {tid : Nat} {vals : List (Option Str)} {iv : Interval}
    (h : getM e.tag_caches tid = some ⟨0, vals⟩)
    (h1 : iv.lo ≤ iv.hi) (h2 : iv.hi ≤ vals.length) :
    e.read_tag tid iv = .ok ((vals.drop iv.lo).take (iv.hi - iv.lo)) := by
  unfold Engine.read_tag
  rw [h]
  dsimp only
  rw [if_pos ⟨h1, h2⟩]

theorem ensure_filter_contained {e : Engine} {rt : LuaRt} {tid filid : Nat} {iv : Interval}
    {c0 : FilterCache} (hc : getM e.filter_caches filid = some c0)
    (hcont : c0.bounds.contains iv = true) :
    e.ensure_filter rt tid filid iv = .ok e := by
  unfold Engine.ensure_filter
  rw [hc]
  simp only [Option.map_some', Option.getD_some]
  rw [if_pos hcont]

theorem ensure_filter_fresh_eval {e : Engine} {rt : LuaRt} {tid filid : Nat}
    {vals : List (Option Str)} {comp : Comparator} {L : Str} {n : Nat}
    (htc : getM e.tag_caches tid = some ⟨0, vals⟩)
    (hn : n ≤ vals.length)
    (hf : getM e.filters filid = some (.direct comp L))
    (hc : getM e.filter_caches filid = none)
    (hn0 : 0 < n) :
    e.ensure_filter rt tid filid ⟨0, n⟩ = .ok
      { e with filter_caches := insertM e.filter_caches filid (FilterCache.mk 0 n (∅ ∪ filterDirectGo comp L 0 ((vals.drop 0).take (n - 0)) 0)) } := by
  unfold Engine.ensure_filter
  rw [hc]
  simp only [Option.map_none', Option.getD_none]
  rw [if_neg (by rw [contains_forward_false hn0]; simp)]
  rw [hf]
  simp only [pure_bind, Interval.missing_before, Interval.missing_after, ite_self]
  rw [if_pos hn0]
  rw [if_pos (show ((⟨0, 0⟩ : Interval).is_empty = true) from rfl)]
  rw [if_neg (show ¬((⟨0, n⟩ : Interval).is_empty = true) from by
    simp only [Interval.is_empty, beq_iff_eq]
    omega)]
  rw [read_tag_eval htc (by simp) (by simpa using hn)]
  rw [okBind]
  dsimp only
  simp only [filter_values]
  rw [okBind]
  rfl

theorem ensure_filter_suffix_eval {e : Engine} {rt : LuaRt} {tid filid : Nat}
    {vals : List (Option Str)} {comp : Comparator} {L : Str} {n : Nat} {c0 : FilterCache}
    (htc : getM e.tag_caches tid = some ⟨0, vals⟩)
    (hn : n ≤ vals.length)
    (hf : getM e.filters filid = some (.direct comp L))
    (hc : getM e.filter_caches filid = some c0)
    (hstart : c0.start = 0)
    (hlt : c0.stop < n) :
    e.ensure_filter rt tid filid ⟨0, n⟩ = .ok
      { e with filter_caches := insertM e.filter_caches filid ({ c0 with stop := n, loaded := c0.loaded ∪ filterDirectGo comp L c0.stop ((vals.drop c0.stop).take (n - c0.stop)) 0 }) } := by
  have hb : c0.bounds = (⟨0, c0.stop⟩ : Interval) := by
    simp [FilterCache.bounds, hstart]
  unfold Engine.ensure_filter
  rw [hc]
  simp only [Option.map_some', Option.getD_some]
  rw [hb]
  rw [if_neg (by rw [contains_forward_false hlt]; simp)]
  rw [hf]
  simp only [pure_bind, Interval.missing_before, Interval.missing_after, ite_self]
  rw [if_pos (show n > c0.stop from hlt)]
  rw [if_pos (show ((⟨0, 0⟩ : Interval).is_empty = true) from rfl)]
  rw [if_neg (show ¬((⟨c0.stop, n⟩ : Interval).is_empty = true) from by
    simp only [Interval.is_empty, beq_iff_eq]
    omega)]
  rw [read_tag_eval htc (show c0.stop ≤ n by omega) (by simpa using hn)]
  rw [okBind]
  dsimp only
  simp only [filter_values]
  rw [okBind]

theorem get?_some_lt {α : Type} {l : List α} {i : Nat} {x : α} (h : l.get? i = some x) :
    i < l.length := by
  obtain ⟨hlt, -⟩ := List.get?_eq_some.mp h
  exact hlt

theorem slice_get? {α : Type} (l : List α) (a b j : Nat) (hj : a + j < b) :
    ((l.drop a).take (b - a)).get? j = l.get? (a + j) := by
  rw [List.get?_take (by omega : j < b - a), List.get?_drop]

theorem slice_get?_some {α : Type} {l : List α} {a b j : Nat} {x : α}
    (h : ((l.drop a).take (b - a)).get? j = some x) :
    j < b - a ∧ l.get? (a + j) = some x := by
  have hlen := get?_some_lt h
  rw [List.length_take, List.length_drop] at hlen
  have hj : j < b - a := lt_of_lt_of_le hlen (min_le_left _ _)
  refine ⟨hj, ?_⟩
  rw [← List.get?_drop, ← List.get?_take hj]
  exact h

/-- The invariant of a direct filter's cache over the governing tag's value
list: its `start` is 0 and its bitset holds exactly the indices below its
`stop` whose tag value satisfies the comparison. (Holds vacuously for an
absent cache.) -/
def FilterCacheOk (e : Engine) (filid : Nat) (vals : List (Option Str))
    (comp : Comparator) (L : Str) : Prop :=
  ∀ c, getM e.filter_caches filid = some c →
    c.start = 0 ∧ ∀ i, i ∈ c.loaded ↔ (i < c.stop ∧
      ∃ v, vals.get? i = some (some v) ∧ DirectSat comp v L)

/-- C3: for a direct filter, (1) `filter_values` marks exactly the indices
`start + j` whose tag value is non-null and satisfies the comparator under
byte-lexicographic string ordering (a null value never satisfies any
comparator), and (2) `ensure_filter`, extended forward by the driver over
`[0, n)` on top of a cache satisfying the invariant, succeeds and leaves the
bitset holding exactly the satisfying indices of the covered range
`[0, stop)` with `n ≤ stop`. -/
theorem direct_filter_semantics :
    (∀ (rt : LuaRt) (comp : Comparator) (L : Str) (values : List (Option Str)) (start : Nat),
      ∃ S, filter_values rt (.direct comp L) values start = .ok S ∧
        ∀ i, i ∈ S ↔ ∃ j, j < values.length ∧ i = start + j ∧
          ∃ v, values.get? j = some (some v) ∧ DirectSat comp v L) ∧
    (∀ (e : Engine) (rt : LuaRt) (tid filid n : Nat) (vals : List (Option Str))
        (comp : Comparator) (L : Str),
      getM e.tag_caches tid = some ⟨0, vals⟩ →
      n ≤ vals.length → 0 < n →
      getM e.filters filid = some (.direct comp L) →
      FilterCacheOk e filid vals comp L →
      ∃ e2, e.ensure_filter rt tid filid ⟨0, n⟩ = .ok e2 ∧
        FilterCacheOk e2 filid vals comp L ∧
        ∃ c, getM e2.filter_caches filid = some c ∧ n ≤ c.stop) := by
  constructor
  · intro rt comp L values start
    refine ⟨filterDirectGo comp L start values 0, rfl, ?_⟩
    intro i
    rw [mem_filterDirectGo]
    constructor
    · rintro ⟨j, v, hj, hv, hi⟩
      exact ⟨j, get?_some_lt hj, by omega, v, hj, (cmpHolds_iff comp v L).mp hv⟩
    · rintro ⟨j, hjlen, hi, v, hj, hv⟩
      exact ⟨j, v, hj, (cmpHolds_iff comp v L).mpr hv, by omega⟩
  · intro e rt tid filid n vals comp L htc hn hn0 hf hok
    cases hc : getM e.filter_caches filid with
    | none =>
      refine ⟨_, ensure_filter_fresh_eval htc hn hf hc hn0, ?_, ?_⟩
      · intro c hcg
        rw [show ({ e with filter_caches := insertM e.filter_caches filid (FilterCache.mk 0 n (∅ ∪ filterDirectGo comp L 0 ((vals.drop 0).take (n - 0)) 0)) } : Engine).filter_caches = insertM e.filter_caches filid (FilterCache.mk 0 n (∅ ∪ filterDirectGo comp L 0 ((vals.drop 0).take (n - 0)) 0)) from rfl] at hcg
        rw [getM_insertM_self] at hcg
        injection hcg with hcg
        subst hcg
        refine ⟨rfl, ?_⟩
        intro i
        dsimp only
        rw [Finset.empty_union, mem_filterDirectGo]
        constructor
        · rintro ⟨j, v, hjs, hcv, hi⟩
          obtain ⟨hjb, hvj⟩ := slice_get?_some hjs
          subst hi
          refine ⟨by omega, v, ?_, (cmpHolds_iff comp v L).mp hcv⟩
          simpa using hvj
        · rintro ⟨hi, v, hv, hsat⟩
          refine ⟨i, v, ?_, (cmpHolds_iff comp v L).mpr hsat, by omega⟩
          rw [slice_get? vals 0 n i (by omega)]
          simpa using hv
      · exact ⟨_, getM_insertM_self _ _ _, le_refl n⟩
    | some c0 =>
      obtain ⟨hst, hinv⟩ := hok c0 hc
      by_cases hle : n ≤ c0.stop
      · have hcont : c0.bounds.contains ⟨0, n⟩ = true := by
          rw [show c0.bounds = (⟨0, c0.stop⟩ : Interval) from by simp [FilterCache.bounds, hst]]
          exact contains_forward_true hle
        exact ⟨e, ensure_filter_contained hc hcont, hok, c0, hc, hle⟩
      · have hlt : c0.stop < n := by omega
        refine ⟨_, ensure_filter_suffix_eval htc hn hf hc hst hlt, ?_, ?_⟩
        · intro c hcg
          rw [show ({ e with filter_caches := insertM e.filter_caches filid ({ c0 with stop := n, loaded := c0.loaded ∪ filterDirectGo comp L c0.stop ((vals.drop c0.stop).take (n - c0.stop)) 0 }) } : Engine).filter_caches = insertM e.filter_caches filid ({ c0 with stop := n, loaded := c0.loaded ∪ filterDirectGo comp L c0.stop ((vals.drop c0.stop).take (n - c0.stop)) 0 }) from rfl] at hcg
          rw [getM_insertM_self] at hcg
          injection hcg with hcg
          subst hcg
          refine ⟨hst, ?_⟩
          intro i
          dsimp only
          rw [Finset.mem_union, hinv i, mem_filterDirectGo]
          constructor
          · rintro (⟨hi, v, hv, hsat⟩ | ⟨j, v, hjs, hcv, hi⟩)
            · exact ⟨by omega, v, hv, hsat⟩
            · obtain ⟨hjb, hvj⟩ := slice_get?_some hjs
              subst hi
              refine ⟨by omega, v, ?_, (cmpHolds_iff comp v L).mp hcv⟩
              rw [show c0.stop + 0 + j = c0.stop + j by omega]
              exact hvj
          · rintro ⟨hi, v, hv, hsat⟩
            by_cases hiw : i < c0.stop
            · exact Or.inl ⟨hiw, v, hv, hsat⟩
            · refine Or.inr ⟨i - c0.stop, v, ?_, (cmpHolds_iff comp v L).mpr hsat, by omega⟩
              rw [slice_get? vals c0.stop n (i - c0.stop) (by omega)]
              rw [show c0.stop + (i - c0.stop) = i by omega]
              exact hv
        · exact ⟨_, getM_insertM_self _ _ _, le_refl n⟩

/-- An engine holding a populated tag cache and a direct filter, for the C3
witness. -/
def eW3 : Engine :=
  { Engine.new with
      tag_caches := [(2, ⟨0, [some (strLit "b"), none, some (strLit "a")]⟩)],
      filters := [(3, Filter.direct .equal (strLit "a"))] }

/-- Closed instance of the C3 theorem at a concrete tag-value list and
engine. -/
theorem direct_filter_semantics_witness :
    (∃ S, filter_values rtDet (.direct .equal (strLit "a"))
        [some (strLit "b"), none, some (strLit "a")] 0 = .ok S ∧
      ∀ i, i ∈ S ↔ ∃ j,
        j < ([some (strLit "b"), none, some (strLit "a")] : List (Option Str)).length ∧
        i = 0 + j ∧
        ∃ v, ([some (strLit "b"), none, some (strLit "a")] : List (Option Str)).get? j =
          some (some v) ∧ DirectSat .equal v (strLit "a")) ∧
    (∃ e2, eW3.ensure_filter rtDet 2 3 ⟨0, 3⟩ = .ok e2 ∧
      FilterCacheOk e2 3 [some (strLit "b"), none, some (strLit "a")] .equal (strLit "a") ∧
      ∃ c, getM e2.filter_caches 3 = some c ∧ 3 ≤ c.stop) :=
  ⟨direct_filter_semantics.1 rtDet .equal (strLit "a")
      [some (strLit "b"), none, some (strLit "a")] 0,
   direct_filter_semantics.2 eW3 rtDet 2 3 3 [some (strLit "b"), none, some (strLit "a")]
      .equal (strLit "a") rfl (by decide) (by decide) rfl
      (by
        intro c hcg
        rw [show getM eW3.filter_caches 3 = none from rfl] at hcg
        exact absurd hcg (by simp))⟩

theorem listBloom_contains_iff (b : List Str) (v : Str) :
    listBloom.contains b v = true ↔ v ∈ b := List.elem_iff

theorem distinctGo_sound {β : Type} (B : BloomOps β)
    (hnfn : ∀ b v, B.contains (B.accrue b v) v = true)
    (hmono : ∀ b v w, B.contains b v = true → B.contains (B.accrue b w) v = true) :
    ∀ (rest : List (Option Str)) (start idx : Nat) (b : β) (i : Nat),
      i ∈ (distinctGo B start rest idx b).1 →
      ∃ k v, rest.get? k = some (some v) ∧ i = start + idx + k ∧
        (∀ k2, k2 < k → rest.get? k2 ≠ some (some v)) ∧ B.contains b v = false := by
  intro rest
  induction rest with
  | nil =>
    intro start idx b i h
    simp [distinctGo] at h
  | cons v? rest2 ih =>
    intro start idx b i h
    cases v? with
    | none =>
      simp only [distinctGo] at h
      obtain ⟨k, v, hk, hi, hearlier, hcb⟩ := ih start (idx + 1) b i h
      refine ⟨k + 1, v, by simpa using hk, by omega, ?_, hcb⟩
      intro k2 hk2
      cases k2 with
      | zero => simp
      | succ k3 => simpa using hearlier k3 (by omega)
    | some value =>
      simp only [distinctGo] at h
      by_cases hcv : B.contains b value = true
      · rw [if_pos hcv] at h
        obtain ⟨k, v, hk, hi, hearlier, hcb⟩ := ih start (idx + 1) b i h
        refine ⟨k + 1, v, by simpa using hk, by omega, ?_, hcb⟩
        intro k2 hk2
        cases k2 with
        | zero =>
          simp only [List.get?_cons_zero, Ne, Option.some.injEq]
          intro hvv
          rw [hvv] at hcv
          rw [hcv] at hcb
          exact absurd hcb (by simp)
        | succ k3 => simpa using hearlier k3 (by omega)
      · rw [if_neg hcv] at h
        rw [Bool.not_eq_true] at hcv
        simp only [Finset.mem_insert] at h
        cases h with
        | inl hi =>
          refine ⟨0, value, by simp, by omega, ?_, hcv⟩
          intro k2 hk2
          exact absurd hk2 (by omega)
        | inr hmem =>
          obtain ⟨k, v, hk, hi, hearlier, hcb2⟩ := ih start (idx + 1) (B.accrue b value) i hmem
          have hcb : B.contains b v = false := by
            by_contra hcc
            rw [Bool.not_eq_false] at hcc
            rw [hmono b v value hcc] at hcb2
            exact absurd hcb2 (by simp)
          refine ⟨k + 1, v, by simpa using hk, by omega, ?_, hcb⟩
          intro k2 hk2
          cases k2 with
          | zero =>
            simp only [List.get?_cons_zero, Ne, Option.some.injEq]
            intro hvv
            rw [← hvv] at hcb2
            rw [hnfn b value] at hcb2
            exact absurd hcb2 (by simp)
          | succ k3 => simpa using hearlier k3 (by omega)

theorem distinctGo_complete_list :
    ∀ (rest : List (Option Str)) (start idx : Nat) (b : List Str) (k : Nat) (v : Str),
      rest.get? k = some (some v) →
      (∀ k2, k2 < k → rest.get? k2 ≠ some (some v)) →
      ¬(v ∈ b) →
      (start + idx + k) ∈ (distinctGo listBloom start rest idx b).1 := by
  intro rest
  induction rest with
  | nil =>
    intro start idx b k v hk
    simp at hk
  | cons v? rest2 ih =>
    intro start idx b k v hk hearlier hvb
    cases k with
    | zero =>
      simp only [List.get?_cons_zero, Option.some.injEq] at hk
      subst hk
      simp only [distinctGo]
      rw [if_neg (by rw [listBloom_contains_iff]; exact hvb)]
      rw [show start + idx + 0 = start + idx by omega]
      exact Finset.mem_insert_self _ _
    | succ k2 =>
      have hk2 : rest2.get? k2 = some (some v) := by simpa using hk
      have hearlier2 : ∀ k3, k3 < k2 → rest2.get? k3 ≠ some (some v) := by
        intro k3 hk3
        simpa using hearlier (k3 + 1) (by omega)
      cases v? with
      | none =>
        simp only [distinctGo]
        rw [show start + idx + (k2 + 1) = start + (idx + 1) + k2 by omega]
        exact ih start (idx + 1) b k2 v hk2 hearlier2 hvb
      | some value =>
        simp only [distinctGo]
        by_cases hcv : listBloom.contains b value = true
        · rw [if_pos hcv]
          rw [show start + idx + (k2 + 1) = start + (idx + 1) + k2 by omega]
          exact ih start (idx + 1) b k2 v hk2 hearlier2 hvb
        · rw [if_neg hcv]
          have hne : ¬(v = value) := by
            intro hvv
            have h0 := hearlier 0 (by omega)
            rw [hvv] at h0
            simp at h0
          have hvb2 : ¬(v ∈ listBloom.accrue b value) := by
            intro hmem
            cases List.mem_cons.mp hmem with
            | inl h => exact hne h
            | inr h => exact hvb h
          refine Finset.mem_insert.mpr (Or.inr ?_)
          rw [show start + idx + (k2 + 1) = start + (idx + 1) + k2 by omega]
          exact ih start (idx + 1) (listBloom.accrue b value) k2 v hk2 hearlier2 hvb2

theorem distinctGo_shift {β : Type} (B : BloomOps β) :
    ∀ (rest : List (Option Str)) (i1 : Nat) (s1 s2 i2 : Nat) (b : β), s1 + i1 = s2 + i2 →
      distinctGo B s1 rest i1 b = distinctGo B s2 rest i2 b := by
  intro rest
  induction rest with
  | nil =>
    intro i1 s1 s2 i2 b hsum
    simp [distinctGo]
  | cons v? rest2 ih =>
    intro i1 s1 s2 i2 b hsum
    cases v? with
    | none =>
      simp only [distinctGo]
      exact ih (i1 + 1) s1 s2 (i2 + 1) b (by omega)
    | some value =>
      simp only [distinctGo]
      by_cases hcv : B.contains b value = true
      · rw [if_pos hcv, if_pos hcv]
        exact ih (i1 + 1) s1 s2 (i2 + 1) b (by omega)
      · rw [if_neg hcv, if_neg hcv]
        rw [ih (i1 + 1) s1 s2 (i2 + 1) (B.accrue b value) (by omega)]
        rw [hsum]

theorem distinctGo_append {β : Type} (B : BloomOps β) (start : Nat) :
    ∀ (v1 v2 : List (Option Str)) (idx : Nat) (b : β),
      distinctGo B start (v1 ++ v2) idx b =
        ((distinctGo B start v1 idx b).1 ∪
            (distinctGo B start v2 (idx + v1.length) (distinctGo B start v1 idx b).2).1,
          (distinctGo B start v2 (idx + v1.length) (distinctGo B start v1 idx b).2).2) := by
  intro v1
  induction v1 with
  | nil =>
    intro v2 idx b
    simp [distinctGo]
  | cons v? rest ih =>
    intro v2 idx b
    rw [List.cons_append]
    cases v? with
    | none =>
      simp only [distinctGo, List.length_cons]
      rw [ih v2 (idx + 1) b]
      rw [show idx + 1 + rest.length = idx + (rest.length + 1) by omega]
    | some value =>
      simp only [distinctGo, List.length_cons]
      by_cases hcv : B.contains b value = true
      · rw [if_pos hcv, if_pos hcv, ih v2 (idx + 1) b]
        rw [show idx + 1 + rest.length = idx + (rest.length + 1) by omega]
      · rw [if_neg hcv, if_neg hcv, ih v2 (idx + 1) (B.accrue b value)]
        rw [show idx + 1 + rest.length = idx + (rest.length + 1) by omega]
        rw [Finset.insert_union]

theorem ensure_distinct_contained {e : Engine} {tid did : Nat} {iv : Interval}
    {c0 : DistinctCache} (hc : getM e.distinct_caches did = some c0)
    (hcont : c0.bounds.contains iv = true) :
    e.ensure_distinct tid did iv = .ok e := by
  unfold Engine.ensure_distinct
  rw [hc]
  simp only [Option.map_some', Option.getD_some]
  rw [if_pos hcont]

theorem ensure_distinct_fresh_eval {e : Engine} {tid did : Nat}
    {vals : List (Option Str)} {n : Nat}
    (htc : getM e.tag_caches tid = some ⟨0, vals⟩)
    (hn : n ≤ vals.length)
    (hc : getM e.distinct_caches did = none)
    (hn0 : 0 < n) :
    e.ensure_distinct tid did ⟨0, n⟩ = .ok
      { e with distinct_caches := insertM e.distinct_caches did (DistinctCache.mk 0 n (∅ ∪ (distinct_values listBloom [] ((vals.drop 0).take (n - 0)) 0).1) (distinct_values listBloom [] ((vals.drop 0).take (n - 0)) 0).2) } := by
  unfold Engine.ensure_distinct
  rw [hc]
  simp only [Option.map_none', Option.getD_none]
  rw [if_neg (by rw [contains_forward_false hn0]; simp)]
  simp only [pure_bind, Interval.missing_before, Interval.missing_after, ite_self]
  rw [if_pos hn0]
  rw [if_pos (show ((⟨0, 0⟩ : Interval).is_empty = true) from rfl)]
  rw [if_neg (show ¬((⟨0, n⟩ : Interval).is_empty = true) from by
    simp only [Interval.is_empty, beq_iff_eq]
    omega)]
  rw [read_tag_eval htc (by simp) (by simpa using hn)]
  rw [okBind]
  rfl

theorem ensure_distinct_suffix_eval {e : Engine} {tid did : Nat}
    {vals : List (Option Str)} {n : Nat} {c0 : DistinctCache}
    (htc : getM e.tag_caches tid = some ⟨0, vals⟩)
    (hn : n ≤ vals.length)
    (hc : getM e.distinct_caches did = some c0)
    (hstart : c0.start = 0)
    (hlt : c0.stop < n) :
    e.ensure_distinct tid did ⟨0, n⟩ = .ok
      { e with distinct_caches := insertM e.distinct_caches did ({ c0 with stop := n, loaded := c0.loaded ∪ (distinct_values listBloom c0.bloom ((vals.drop c0.stop).take (n - c0.stop)) c0.stop).1, bloom := (distinct_values listBloom c0.bloom ((vals.drop c0.stop).take (n - c0.stop)) c0.stop).2 }) } := by
  have hb : c0.bounds = (⟨0, c0.stop⟩ : Interval) := by
    simp [DistinctCache.bounds, hstart]
  unfold Engine.ensure_distinct
  rw [hc]
  simp only [Option.map_some', Option.getD_some]
  rw [hb]
  rw [if_neg (by rw [contains_forward_false hlt]; simp)]
  simp only [pure_bind, Interval.missing_before, Interval.missing_after, ite_self]
  rw [if_pos (show n > c0.stop from hlt)]
  rw [if_pos (show ((⟨0, 0⟩ : Interval).is_empty = true) from rfl)]
  rw [if_neg (show ¬((⟨c0.stop, n⟩ : Interval).is_empty = true) from by
    simp only [Interval.is_empty, beq_iff_eq]
    omega)]
  rw [read_tag_eval htc (show c0.stop ≤ n by omega) (by simpa using hn)]
  rw [okBind]

theorem listBloom_nfn (b : List Str) (v : Str) :
    listBloom.contains (listBloom.accrue b v) v = true := by
  rw [listBloom_contains_iff]
  exact List.mem_cons_self _ _

theorem listBloom_mono (b : List Str) (v w : Str)
    (h : listBloom.contains b v = true) :
    listBloom.contains (listBloom.accrue b w) v = true := by
  rw [listBloom_contains_iff] at h
  rw [listBloom_contains_iff]
  exact List.mem_cons_of_mem _ h

/-- The result of one forward scan from index 0: the distinct bitset and bloom
after processing the first `n` tag values, with the zero bloom at the start —
the reference the driver's forward extensions are compared with. -/
def distRun (vals : List (Option Str)) (n : Nat) : Finset Nat × List Str :=
  distinct_values listBloom [] (vals.take n) 0

/-- The invariant of a distinct cache over the governing tag's value list: its
`start` is 0 and its bitset and bloom are exactly those of one forward scan of
the covered prefix. (Holds vacuously for an absent cache.) -/
def DistinctCacheOk (e : Engine) (did : Nat) (vals : List (Option Str)) : Prop :=
  ∀ c, getM e.distinct_caches did = some c →
    c.start = 0 ∧ c.loaded = (distRun vals c.stop).1 ∧ c.bloom = (distRun vals c.stop).2

theorem distRun_split {vals : List (Option Str)} {stop n : Nat}
    (hsn : stop ≤ n) (hn : n ≤ vals.length) :
    distRun vals n =
      ((distRun vals stop).1 ∪
          (distinct_values listBloom (distRun vals stop).2
            ((vals.drop stop).take (n - stop)) stop).1,
        (distinct_values listBloom (distRun vals stop).2
          ((vals.drop stop).take (n - stop)) stop).2) := by
  have hsplit : vals.take n = vals.take stop ++ (vals.drop stop).take (n - stop) := by
    have h1 : (vals.take n).take stop = vals.take stop := by
      rw [List.take_take]
      congr 1
      omega
    have h2 : (vals.take n).drop stop = (vals.drop stop).take (n - stop) :=
      List.drop_take n stop vals
    rw [← h1, ← h2, List.take_append_drop]
  have hlen : (vals.take stop).length = stop := by
    rw [List.length_take]
    omega
  show distinctGo listBloom 0 (vals.take n) 0 [] = _
  rw [hsplit, distinctGo_append, hlen]
  have hshift : distinctGo listBloom 0 ((vals.drop stop).take (n - stop)) (0 + stop)
        (distinctGo listBloom 0 (vals.take stop) 0 []).2 =
      distinctGo listBloom stop ((vals.drop stop).take (n - stop)) 0
        (distinctGo listBloom 0 (vals.take stop) 0 []).2 :=
    distinctGo_shift listBloom _ (0 + stop) 0 stop 0 _ (by omega)
  rw [hshift]
  rfl

/-- C5: distinct marking is sound and first-occurrence-exact. With any bloom
satisfying the component contract (empty zero bloom, no false negatives,
persistence of membership under accrual): (a) every marked index carries a
non-null value and is the least index holding that value — so null values
never set a bit — and (b) at most one index per value byte-sequence is
marked. (c) With the exact-set bloom (no false positives) an index is marked
if and only if it is the least occurrence of its non-null value; a false
positive can only remove such a least occurrence. (d) `ensure_distinct`,
driven strictly forward from index 0, succeeds and keeps the cache equal to
one forward scan of the covered prefix (bitset and threaded bloom alike). -/
theorem distinct_first_occurrence :
    (∀ {β : Type} (B : BloomOps β) (z : β),
      (∀ v, B.contains z v = false) →
      (∀ b v, B.contains (B.accrue b v) v = true) →
      (∀ b v w, B.contains b v = true → B.contains (B.accrue b w) v = true) →
      ∀ (values : List (Option Str)) (i : Nat),
        i ∈ (distinct_values B z values 0).1 →
        ∃ v, values.get? i = some (some v) ∧
          ∀ j, j < i → values.get? j ≠ some (some v)) ∧
    (∀ {β : Type} (B : BloomOps β) (z : β),
      (∀ v, B.contains z v = false) →
      (∀ b v, B.contains (B.accrue b v) v = true) →
      (∀ b v w, B.contains b v = true → B.contains (B.accrue b w) v = true) →
      ∀ (values : List (Option Str)) (i1 i2 : Nat) (v : Str),
        i1 ∈ (distinct_values B z values 0).1 → i2 ∈ (distinct_values B z values 0).1 →
        values.get? i1 = some (some v) → values.get? i2 = some (some v) → i1 = i2) ∧
    (∀ (values : List (Option Str)) (i : Nat),
      i ∈ (distinct_values listBloom [] values 0).1 ↔
        ∃ v, values.get? i = some (some v) ∧
          ∀ j, j < i → values.get? j ≠ some (some v)) ∧
    (∀ (e : Engine) (tid did n : Nat) (vals : List (Option Str)),
      getM e.tag_caches tid = some ⟨0, vals⟩ →
      n ≤ vals.length → 0 < n →
      DistinctCacheOk e did vals →
      ∃ e2, e.ensure_distinct tid did ⟨0, n⟩ = .ok e2 ∧
        DistinctCacheOk e2 did vals ∧
        ∃ c, getM e2.distinct_caches did = some c ∧ n ≤ c.stop) := by
  have hsound : ∀ {β : Type} (B : BloomOps β) (z : β),
      (∀ v, B.contains z v = false) →
      (∀ b v, B.contains (B.accrue b v) v = true) →
      (∀ b v w, B.contains b v = true → B.contains (B.accrue b w) v = true) →
      ∀ (values : List (Option Str)) (i : Nat),
        i ∈ (distinct_values B z values 0).1 →
        ∃ v, values.get? i = some (some v) ∧
          ∀ j, j < i → values.get? j ≠ some (some v) := by
    intro β B z hz hnfn hmono values i hi
    obtain ⟨k, v, hk, hik, hearlier, -⟩ :=
      distinctGo_sound B hnfn hmono values 0 0 z i hi
    have hik2 : i = k := by omega
    subst hik2
    exact ⟨v, hk, fun j hj => hearlier j hj⟩
  refine ⟨hsound, ?_, ?_, ?_⟩
  · intro β B z hz hnfn hmono values i1 i2 v h1 h2 hv1 hv2
    obtain ⟨w1, hw1, hl1⟩ := hsound B z hz hnfn hmono values i1 h1
    obtain ⟨w2, hw2, hl2⟩ := hsound B z hz hnfn hmono values i2 h2
    rw [hv1] at hw1
    rw [hv2] at hw2
    injection hw1 with hw1
    injection hw1 with hw1
    injection hw2 with hw2
    injection hw2 with hw2
    subst hw1
    subst hw2
    by_contra hne
    rcases Nat.lt_or_ge i1 i2 with hlt | hge
    · exact hl2 i1 hlt hv1
    · have hlt2 : i2 < i1 := by omega
      exact hl1 i2 hlt2 hv2
  · intro values i
    constructor
    · exact hsound listBloom [] (fun v => by rfl) listBloom_nfn listBloom_mono values i
    · rintro ⟨v, hv, hleast⟩
      have := distinctGo_complete_list values 0 0 [] i v hv
        (fun k2 hk2 => hleast k2 hk2) (by simp)
      simpa using this
  · intro e tid did n vals htc hn hn0 hok
    cases hc : getM e.distinct_caches did with
    | none =>
      refine ⟨_, ensure_distinct_fresh_eval htc hn hc hn0, ?_, ?_⟩
      · intro c hcg
        rw [show ({ e with distinct_caches := insertM e.distinct_caches did (DistinctCache.mk 0 n (∅ ∪ (distinct_values listBloom [] ((vals.drop 0).take (n - 0)) 0).1) (distinct_values listBloom [] ((vals.drop 0).take (n - 0)) 0).2) } : Engine).distinct_caches = insertM e.distinct_caches did (DistinctCache.mk 0 n (∅ ∪ (distinct_values listBloom [] ((vals.drop 0).take (n - 0)) 0).1) (distinct_values listBloom [] ((vals.drop 0).take (n - 0)) 0).2) from rfl] at hcg
        rw [getM_insertM_self] at hcg
        injection hcg with hcg
        subst hcg
        refine ⟨rfl, ?_, ?_⟩
        · dsimp only
          rw [Finset.empty_union]
          rw [show (vals.drop 0).take (n - 0) = vals.take n by simp]
          rfl
        · dsimp only
          rw [show (vals.drop 0).take (n - 0) = vals.take n by simp]
          rfl
      · exact ⟨_, getM_insertM_self _ _ _, le_refl n⟩
    | some c0 =>
      obtain ⟨hst, hld, hbl⟩ := hok c0 hc
      by_cases hle : n ≤ c0.stop
      · have hcont : c0.bounds.contains ⟨0, n⟩ = true := by
          rw [show c0.bounds = (⟨0, c0.stop⟩ : Interval) from by
            simp [DistinctCache.bounds, hst]]
          exact contains_forward_true hle
        exact ⟨e, ensure_distinct_contained hc hcont, hok, c0, hc, hle⟩
      · have hlt : c0.stop < n := by omega
        refine ⟨_, ensure_distinct_suffix_eval htc hn hc hst hlt, ?_, ?_⟩
        · intro c hcg
          rw [show ({ e with distinct_caches := insertM e.distinct_caches did ({ c0 with stop := n, loaded := c0.loaded ∪ (distinct_values listBloom c0.bloom ((vals.drop c0.stop).take (n - c0.stop)) c0.stop).1, bloom := (distinct_values listBloom c0.bloom ((vals.drop c0.stop).take (n - c0.stop)) c0.stop).2 }) } : Engine).distinct_caches = insertM e.distinct_caches did ({ c0 with stop := n, loaded := c0.loaded ∪ (distinct_values listBloom c0.bloom ((vals.drop c0.stop).take (n - c0.stop)) c0.stop).1, bloom := (distinct_values listBloom c0.bloom ((vals.drop c0.stop).take (n - c0.stop)) c0.stop).2 }) from rfl] at hcg
          rw [getM_insertM_self] at hcg
          injection hcg with hcg
          subst hcg
          have hkey := @distRun_split vals c0.stop n (by omega) hn
          refine ⟨hst, ?_, ?_⟩
          · dsimp only
            rw [hld, hbl, hkey]
          · dsimp only
            rw [hbl, hkey]
        · exact ⟨_, getM_insertM_self _ _ _, le_refl n⟩

/-! C1: termination of `Take`. The explicit fuel of `Engine.takeLoop` stands
for the infinite `ReadIntervals` iterator; termination of the source loop is
the statement that this fuel is never exhausted, i.e. that `Engine.take`
never evaluates to `Err.outOfFuel`. Every other error constructor models a
genuine (terminating) failure path of the source. -/

/-- `r` does not stand for a non-terminating run: every function of the model
except the batch loop satisfies it outright. -/
def NF {α : Type} (r : Except Err α) : Prop := r ≠ Except.error Err.outOfFuel

theorem bindErrE {α β : Type} {m : Except Err α} {k : α → Except Err β} {er : Err} :
    (m >>= k) = .error er ↔ m = .error er ∨ ∃ a, m = .ok a ∧ k a = .error er := by
  cases m with
  | error e0 => simp [Bind.bind, Except.bind]
  | ok a => simp [Bind.bind, Except.bind]

theorem nf_read (f : FileSt) (iv : Interval) : NF (f.read iv) := by
  intro h
  simp only [FileSt.read] at h
  split at h
  · exact absurd h (by simp)
  · exact absurd h (by simp)

theorem nf_transform_chunk (rt : LuaRt) (t : Option Str) (c : Str) :
    NF (transform_chunk rt t c) := by
  intro h
  simp only [transform_chunk] at h
  split at h
  · split at h
    · exact absurd h (by simp)
    · exact absurd h (by simp)
  · exact absurd h (by simp)

theorem nf_test_chunk (rt : LuaRt) (t c : Str) : NF (test_chunk rt t c) := by
  intro h
  simp only [test_chunk] at h
  split at h
  · exact absurd h (by simp)
  · exact absurd h (by simp)

theorem nf_read_lines (e : Engine) (fid : Nat) (iv : Interval) :
    NF (e.read_lines fid iv) := by
  intro h
  simp only [Engine.read_lines] at h
  split at h
  · exact absurd h (by simp)
  · split at h
    · exact absurd h (by simp)
    · exact absurd h (by simp)

theorem nf_read_tag (e : Engine) (tid : Nat) (iv : Interval) :
    NF (e.read_tag tid iv) := by
  intro h
  simp only [Engine.read_tag] at h
  split at h
  · exact absurd h (by simp)
  · split at h
    · exact absurd h (by simp)
    · exact absurd h (by simp)

theorem nf_read_filter (e : Engine) (filid : Nat) : NF (e.read_filter filid) := by
  intro h
  simp only [Engine.read_filter] at h
  split at h
  · exact absurd h (by simp)
  · exact absurd h (by simp)

theorem nf_read_distinct (e : Engine) (did : Nat) : NF (e.read_distinct did) := by
  intro h
  simp only [Engine.read_distinct] at h
  split at h
  · exact absurd h (by simp)
  · exact absurd h (by simp)

theorem nf_filterScriptedGo (rt : LuaRt) (script : Str) (start : Nat) :
    ∀ (values : List (Option Str)) (idx : Nat),
      NF (filterScriptedGo rt script start values idx) := by
  intro values
  induction values with
  | nil => intro idx h; exact absurd h (by simp [filterScriptedGo])
  | cons v rest ih =>
    intro idx h
    simp only [filterScriptedGo] at h
    split at h
    · rw [bindErrE] at h
      rcases h with h | ⟨b, -, h⟩
      · exact nf_test_chunk rt script _ h
      · rw [bindErrE] at h
        rcases h with h | ⟨s, -, h⟩
        · exact ih (idx + 1) h
        · exact absurd h (by simp)
    · exact ih (idx + 1) h

theorem nf_filter_values (rt : LuaRt) (filter : Filter) (values : List (Option Str))
    (start : Nat) : NF (filter_values rt filter values start) := by
  intro h
  simp only [filter_values] at h
  split at h
  · exact absurd h (by simp)
  · exact nf_filterScriptedGo rt _ start values 0 h

theorem nf_find_parent_tag (e : Engine) :
    ∀ (fuel : Nat) (id : Id), NF (e.find_parent_tag fuel id) := by
  intro fuel
  induction fuel with
  | zero => intro id h; exact absurd h (by simp [Engine.find_parent_tag])
  | succ fuel ih =>
    intro id h
    simp only [Engine.find_parent_tag] at h
    split at h
    · split at h
      · exact absurd h (by simp)
      · exact ih _ h
    · split at h
      · exact absurd h (by simp)
      · exact ih _ h
    · exact absurd h (by simp)
    · exact absurd h (by simp)

theorem nf_leafCount (e : Engine) (leaf : Id) : NF (e.leafCount leaf) := by
  intro h
  simp only [Engine.leafCount] at h
  split at h <;> split at h <;> exact absurd h (by simp)

theorem nf_ensure_file (e : Engine) (fid : Nat) (iv : Interval) :
    NF (e.ensure_file fid iv) := by
  intro h
  simp only [Engine.ensure_file, pure_bind] at h
  split at h
  · exact absurd h (by simp)
  · split at h
    · exact absurd h (by simp)
    · split at h
      · split at h
        · exact absurd h (by simp)
        · rw [bindErrE] at h
          rcases h with h | ⟨r, -, h⟩
          · exact nf_read _ _ h
          · exact absurd h (by simp)
      · rw [bindErrE] at h
        rcases h with h | ⟨r, -, h⟩
        · exact nf_read _ _ h
        · try dsimp only at h
          split at h
          · exact absurd h (by simp)
          · rw [bindErrE] at h
            rcases h with h | ⟨r2, -, h⟩
            · exact nf_read _ _ h
            · exact absurd h (by simp)

theorem nf_ensure_tag (e : Engine) (rt : LuaRt) (fid tid : Nat) (iv : Interval) :
    NF (e.ensure_tag rt fid tid iv) := by
  intro h
  simp only [Engine.ensure_tag, pure_bind] at h
  split at h
  · exact absurd h (by simp)
  · split at h
    · exact absurd h (by simp)
    · split at h
      · split at h
        · exact absurd h (by simp)
        · rw [bindErrE] at h
          rcases h with h | ⟨lines, -, h⟩
          · exact nf_read_lines _ _ _ h
          · exact absurd h (by simp)
      · rw [bindErrE] at h
        rcases h with h | ⟨lines, -, h⟩
        · exact nf_read_lines _ _ _ h
        · try dsimp only at h
          split at h
          · exact absurd h (by simp)
          · rw [bindErrE] at h
            rcases h with h | ⟨lines2, -, h⟩
            · exact nf_read_lines _ _ _ h
            · exact absurd h (by simp)

theorem nf_ensure_filter (e : Engine) (rt : LuaRt) (tid filid : Nat) (iv : Interval) :
    NF (e.ensure_filter rt tid filid iv) := by
  intro h
  simp only [Engine.ensure_filter, pure_bind] at h
  split at h
  · exact absurd h (by simp)
  · split at h
    · exact absurd h (by simp)
    · split at h
      · split at h
        · exact absurd h (by simp)
        · rw [bindErrE] at h
          rcases h with h | ⟨vals, -, h⟩
          · exact nf_read_tag _ _ _ h
          · try dsimp only at h
            rw [bindErrE] at h
            rcases h with h | ⟨s, -, h⟩
            · exact nf_filter_values _ _ _ _ h
            · exact absurd h (by simp)
      · rw [bindErrE] at h
        rcases h with h | ⟨vals, -, h⟩
        · exact nf_read_tag _ _ _ h
        · try dsimp only at h
          rw [bindErrE] at h
          rcases h with h | ⟨s, -, h⟩
          · exact nf_filter_values _ _ _ _ h
          · try dsimp only at h
            split at h
            · exact absurd h (by simp)
            · rw [bindErrE] at h
              rcases h with h | ⟨vals2, -, h⟩
              · exact nf_read_tag _ _ _ h
              · try dsimp only at h
                rw [bindErrE] at h
                rcases h with h | ⟨s2, -, h⟩
                · exact nf_filter_values _ _ _ _ h
                · exact absurd h (by simp)

theorem nf_ensure_distinct (e : Engine) (tid did : Nat) (iv : Interval) :
    NF (e.ensure_distinct tid did iv) := by
  intro h
  simp only [Engine.ensure_distinct, pure_bind] at h
  split at h
  · exact absurd h (by simp)
  · split at h
    · split at h
      · exact absurd h (by simp)
      · rw [bindErrE] at h
        rcases h with h | ⟨vals, -, h⟩
        · exact nf_read_tag _ _ _ h
        · exact absurd h (by simp)
    · rw [bindErrE] at h
      rcases h with h | ⟨vals, -, h⟩
      · exact nf_read_tag _ _ _ h
      · try dsimp only at h
        split at h
        · exact absurd h (by simp)
        · rw [bindErrE] at h
          rcases h with h | ⟨vals2, -, h⟩
          · exact nf_read_tag _ _ _ h
          · exact absurd h (by simp)

theorem nf_takeBatchSteps (rt : LuaRt) :
    ∀ (steps : List Id) (e : Engine) (cov batch : Interval),
      NF (Engine.takeBatchSteps rt e cov batch steps) := by
  intro steps
  induction steps with
  | nil => intro e cov batch h; exact absurd h (by simp [Engine.takeBatchSteps])
  | cons step rest ih =>
    intro e cov batch h
    simp only [Engine.takeBatchSteps] at h
    split at h
    · rw [bindErrE] at h
      rcases h with h | ⟨r, -, h⟩
      · exact nf_ensure_file _ _ _ h
      · split at h
        · exact absurd h (by simp)
        · exact ih _ _ _ h
    · rw [bindErrE] at h
      rcases h with h | ⟨t, -, h⟩
      · exact nf_find_parent_tag _ _ _ h
      · split at h
        · exact absurd h (by simp)
        · rw [bindErrE] at h
          rcases h with h | ⟨e2, -, h⟩
          · exact nf_ensure_distinct _ _ _ _ h
          · exact ih _ _ _ h
    · rw [bindErrE] at h
      rcases h with h | ⟨t, -, h⟩
      · exact nf_find_parent_tag _ _ _ h
      · split at h
        · exact absurd h (by simp)
        · rw [bindErrE] at h
          rcases h with h | ⟨e2, -, h⟩
          · exact nf_ensure_filter _ _ _ _ _ h
          · exact ih _ _ _ h
    · split at h
      · exact absurd h (by simp)
      · rw [bindErrE] at h
        rcases h with h | ⟨e2, -, h⟩
        · exact nf_ensure_tag _ _ _ _ _ h
        · exact ih _ _ _ h

theorem nf_ensureTagsGo (rt : LuaRt) (fid : Nat) (iv : Interval) :
    ∀ (ts : List Nat) (e : Engine), NF (ensureTagsGo rt fid iv ts e) := by
  intro ts
  induction ts with
  | nil => intro e h; exact absurd h (by simp [ensureTagsGo])
  | cons t rest ih =>
    intro e h
    simp only [ensureTagsGo] at h
    rw [bindErrE] at h
    rcases h with h | ⟨e2, -, h⟩
    · exact nf_ensure_tag _ _ _ _ _ h
    · exact ih e2 h

theorem nf_readAllTagsGo (e : Engine) (iv : Interval) :
    ∀ (ts : List Nat), NF (readAllTagsGo e iv ts) := by
  intro ts
  induction ts with
  | nil => intro h; exact absurd h (by simp [readAllTagsGo])
  | cons t rest ih =>
    intro h
    simp only [readAllTagsGo] at h
    split at h
    · exact absurd h (by simp)
    · rw [bindErrE] at h
      rcases h with h | ⟨vals, -, h⟩
      · exact nf_read_tag _ _ _ h
      · rw [bindErrE] at h
        rcases h with h | ⟨others, -, h⟩
        · exact ih h
        · exact absurd h (by simp)

theorem nf_combineGo {read1 : Nat → Except Err (Finset Nat)}
    (h1 : ∀ i, NF (read1 i)) :
    ∀ (ids : List Nat) (acc : Option (Finset Nat)), NF (combineGo read1 ids acc) := by
  intro ids
  induction ids with
  | nil => intro acc h; exact absurd h (by simp [combineGo])
  | cons i rest ih =>
    intro acc h
    simp only [combineGo] at h
    rw [bindErrE] at h
    rcases h with h | ⟨s, -, h⟩
    · exact h1 i h
    · split at h
      · exact ih _ h
      · exact ih _ h

theorem nf_tagLines (tags : List (Str × List (Option Str))) (idx : Nat) :
    NF (tagLines tags idx) := by
  induction tags with
  | nil => intro h; exact absurd h (by simp [tagLines])
  | cons tv rest ih =>
    intro h
    simp only [tagLines] at h
    split at h
    · exact absurd h (by simp)
    · rw [bindErrE] at h
      rcases h with h | ⟨others, -, h⟩
      · exact ih h
      · exact absurd h (by simp)

theorem nf_renderGo (tags : List (Str × List (Option Str)))
    (comb : Option (Finset Nat)) (count : Nat) :
    ∀ (lines : List Str) (idx cc : Nat), NF (renderGo tags comb count lines idx cc) := by
  intro lines
  induction lines with
  | nil => intro idx cc h; exact absurd h (by simp [renderGo])
  | cons line rest ih =>
    intro idx cc h
    simp only [renderGo] at h
    split at h
    · rw [bindErrE] at h
      rcases h with h | ⟨tls, -, h⟩
      · exact nf_tagLines _ _ h
      · split at h
        · exact absurd h (by simp)
        · rw [bindErrE] at h
          rcases h with h | ⟨more, -, h⟩
          · exact ih _ _ h
          · exact absurd h (by simp)
    · exact ih _ _ h

theorem nf_file_id (p : Plan) : NF p.file_id := by
  intro h
  simp only [Plan.file_id] at h
  split at h
  · exact absurd h (by simp)
  · exact absurd h (by simp)

/-- The file cache of slot `fid` (the absent-cache default of `ensure_file`). -/
def fcF (e : Engine) (fid : Nat) : FileCache :=
  (getM e.file_caches fid).getD FileCache.empty

/-- The number of cached lines of file `fid`. -/
def hiF (e : Engine) (fid : Nat) : Nat := (fcF e fid).loaded.length

/-- The bytes the reader of file `fid` has not yet consumed. -/
def remF (e : Engine) (fid : Nat) : Nat :=
  match getM e.files fid with
  | some f => f.bytes.length - f.pos
  | none => 0

/-- The termination measure of the batch loop: no batch can make the covered
line count exceed it, and it never increases. -/
def MzF (e : Engine) (fid : Nat) : Nat := hiF e fid + remF e fid

/-- Well-formedness of file slot `fid` as the batch loop relies on it: the
cache grows from line 0, and the reader's line index never exceeds the cached
line count. `ensure_file` preserves both (the off-by-one seek included). -/
def WfF (e : Engine) (fid : Nat) : Prop :=
  (fcF e fid).start = 0 ∧ ∀ f, getM e.files fid = some f → f.index ≤ hiF e fid

theorem lineAt_length : ∀ s : Str, (lineAt s).length ≤ s.length := by
  intro s
  induction s with
  | nil => simp [lineAt]
  | cons b rest ih =>
    simp only [lineAt]
    split
    · simp
    · simpa using ih

theorem readGo_spec (bytes : Str) :
    ∀ (n index pos idx : Nat),
      (readGo bytes index pos idx n).1.length ≤ bytes.length - pos ∧
      pos + (readGo bytes index pos idx n).1.length ≤ (readGo bytes index pos idx n).2.2 ∧
      ((readGo bytes index pos idx n).2.1 ≤ index ∨
        (readGo bytes index pos idx n).2.1 ≤ idx + (readGo bytes index pos idx n).1.length) := by
  intro n
  induction n with
  | zero =>
    intro index pos idx
    simp [readGo]
  | succ n ih =>
    intro index pos idx
    have hl := lineAt_length (bytes.drop pos)
    rw [List.length_drop] at hl
    by_cases hz : (lineAt (bytes.drop pos)).length = 0
    · simp only [readGo, readLine]
      rw [if_pos (by simpa using hz)]
      simp [hz]
    · simp only [readGo, readLine]
      rw [if_neg (by simpa using hz)]
      obtain ⟨h1, h2, h3⟩ := ih idx (pos + (lineAt (bytes.drop pos)).length) (idx + 1)
      dsimp only
      refine ⟨?_, ?_, ?_⟩
      · simp only [List.length_cons]
        omega
      · simp only [List.length_cons]
        omega
      · right
        simp only [List.length_cons]
        rcases h3 with h3 | h3 <;> omega

theorem file_slot_congr {e e' : Engine} {fid : Nat}
    (h1 : fcF e' fid = fcF e fid)
    (hf : getM e'.files fid = getM e.files fid) (hw : WfF e fid) :
    WfF e' fid ∧ MzF e' fid = MzF e fid ∧ hiF e' fid = hiF e fid := by
  have h3 : hiF e' fid = hiF e fid := by rw [hiF, h1]; rfl
  have h2 : remF e' fid = remF e fid := by rw [remF, hf]; rfl
  refine ⟨⟨?_, ?_⟩, ?_, h3⟩
  · rw [h1]; exact hw.1
  · intro f hgf
    rw [hf] at hgf
    rw [h3]
    exact hw.2 f hgf
  · rw [MzF, MzF, h2, h3]

theorem min_rc_pos {c : FileCache} {lo len : Nat}
    (h : 0 < min (c.bounds.hi - min c.bounds.hi lo) len) : lo < c.loaded.length := by
  have hb : c.bounds.hi = c.loaded.length := rfl
  omega

theorem ensure_slot_noop {e e' : Engine} {fid fid' : Nat} {iv : Interval} {rc : Nat}
    (h1 : fcF e' fid = fcF e fid)
    (hf : getM e'.files fid = getM e.files fid) (hw : WfF e fid)
    (hlast : fid' = fid → 0 < rc → iv.lo < hiF e' fid) :
    WfF e' fid ∧ MzF e' fid ≤ MzF e fid ∧ hiF e fid ≤ hiF e' fid ∧
      (fid' = fid → 0 < rc → iv.lo < hiF e' fid) := by
  obtain ⟨hwf, hmz, hhi⟩ := file_slot_congr h1 hf hw
  exact ⟨hwf, le_of_eq hmz, le_of_eq hhi.symm, hlast⟩

theorem FileSt_read_eval {f : FileSt} {iv : Interval} (hix : f.index ≤ iv.lo) :
    f.read iv =
      .ok ((readGo f.bytes f.index (f.pos + (iv.lo - f.index)) iv.lo iv.len).1,
        { f with index := (readGo f.bytes f.index (f.pos + (iv.lo - f.index)) iv.lo iv.len).2.1,
                 pos := (readGo f.bytes f.index (f.pos + (iv.lo - f.index)) iv.lo iv.len).2.2 }) := by
  simp only [FileSt.read]
  rw [if_neg (by omega)]
  have ht : ((f.pos : Int) + ((iv.lo : Int) - (f.index : Int))).toNat
      = f.pos + (iv.lo - f.index) := by omega
  rw [ht]

/-- The effect of one `ensure_file` call on the root slot `fid` of the batch
loop: well-formedness and the measure are preserved (for every slot, the
written one included), the cached line count never shrinks, and a positive
covered count means the requested interval starts below the new cache end. -/
theorem ensure_file_root {e e' : Engine} {fid fid' : Nat} {iv : Interval} {rc : Nat}
    (hw : WfF e fid) (h : e.ensure_file fid' iv = .ok (rc, e')) :
    WfF e' fid ∧ MzF e' fid ≤ MzF e fid ∧ hiF e fid ≤ hiF e' fid ∧
      (fid' = fid → 0 < rc → iv.lo < hiF e' fid) := by
  simp only [Engine.ensure_file, pure_bind] at h
  by_cases hff : fid' = fid
  · subst hff
    split at h
    · rename_i hcont
      injection h with h
      injection h with h1 h2
      subst h1
      subst h2
      refine ensure_slot_noop (by simp [fcF, getM_insertM_self]) rfl hw ?_
      intro _ hrc
      simp only [FileCache.bounds] at hrc
      simp only [hiF, fcF, getM_insertM_self, Option.getD_some]
      omega
    · split at h
      · exact absurd h (by simp)
      · rename_i f0 heq
        have hst : ((getM e.file_caches fid').getD FileCache.empty).start = 0 := hw.1
        have hmb : (((getM e.file_caches fid').getD
            FileCache.empty).bounds.missing_before iv).is_empty = true := by
          simp [FileCache.bounds, Interval.missing_before, hst, Interval.is_empty]
        rw [if_pos hmb] at h
        split at h
        · rename_i hma
          injection h with h
          injection h with h1 h2
          subst h1
          subst h2
          refine ensure_slot_noop (by simp [fcF, getM_insertM_self])
            (by simp [getM_insertM_self, heq]) hw ?_
          intro _ hrc
          simp only [FileCache.bounds] at hrc
          simp only [hiF, fcF, getM_insertM_self, Option.getD_some]
          omega
        · rename_i hma
          rw [bindOk] at h
          obtain ⟨r, hread, h⟩ := h
          have hmalo : (((getM e.file_caches fid').getD
              FileCache.empty).bounds.missing_after iv).lo = hiF e fid' := by
            simp only [Interval.missing_after, FileCache.bounds]
            split <;> rfl
          have hidx : f0.index ≤ (((getM e.file_caches fid').getD
              FileCache.empty).bounds.missing_after iv).lo := by
            rw [hmalo]
            exact hw.2 f0 heq
          rw [FileSt_read_eval hidx] at hread
          injection hread with hread
          subst hread
          injection h with h
          injection h with h1 h2
          subst h1
          subst h2
          obtain ⟨s1, s2, s3⟩ := readGo_spec f0.bytes
            (((getM e.file_caches fid').getD FileCache.empty).bounds.missing_after iv).len
            f0.index
            (f0.pos + ((((getM e.file_caches fid').getD
              FileCache.empty).bounds.missing_after iv).lo - f0.index))
            (((getM e.file_caches fid').getD FileCache.empty).bounds.missing_after iv).lo
          have hY : hiF e fid' = ((getM e.file_caches fid').getD
              FileCache.empty).loaded.length := rfl
          have hidx0 : f0.index ≤ hiF e fid' := hw.2 f0 heq
          refine ⟨⟨?_, ?_⟩, ?_, ?_, ?_⟩
          · simp only [fcF, getM_insertM_self, Option.getD_some]
            exact hst
          · intro f hgf
            simp only [getM_insertM_self] at hgf
            injection hgf with hgf
            subst hgf
            simp only [hiF, fcF, getM_insertM_self, Option.getD_some, List.length_append]
            rcases s3 with s3 | s3 <;> omega
          · simp only [MzF, hiF, remF, fcF, getM_insertM_self, Option.getD_some,
              List.length_append, heq]
            omega
          · simp only [hiF, fcF, getM_insertM_self, Option.getD_some, List.length_append]
            omega
          · intro _ hrc
            have hlt := min_rc_pos hrc
            simp only [hiF, fcF, getM_insertM_self, Option.getD_some]
            simpa [List.length_append] using hlt
  · have gc : ∀ (m : MapL FileCache) (v : FileCache),
        getM (insertM m fid' v) fid = getM m fid :=
      fun m v => getM_insertM_ne m fid' fid v (fun hh => hff hh.symm)
    have gf : ∀ (m : MapL FileSt) v, getM (insertM m fid' v) fid = getM m fid :=
      fun m v => getM_insertM_ne m fid' fid v (fun hh => hff hh.symm)
    split at h
    · injection h with h
      injection h with h1 h2
      subst h1
      subst h2
      exact ensure_slot_noop (by simp [fcF, gc]) rfl hw (fun hh => absurd hh hff)
    · split at h
      · exact absurd h (by simp)
      · rename_i f0 heq
        split at h
        · split at h
          · injection h with h
            injection h with h1 h2
            subst h1
            subst h2
            exact ensure_slot_noop (by simp [fcF, gc]) (by simp [gf]) hw
              (fun hh => absurd hh hff)
          · rw [bindOk] at h
            obtain ⟨r, -, h⟩ := h
            injection h with h
            injection h with h1 h2
            subst h1
            subst h2
            exact ensure_slot_noop (by simp [fcF, gc]) (by simp [gf]) hw
              (fun hh => absurd hh hff)
        · rw [bindOk] at h
          obtain ⟨r, -, h⟩ := h
          split at h
          · injection h with h
            injection h with h1 h2
            subst h1
            subst h2
            exact ensure_slot_noop (by simp [fcF, gc]) (by simp [gf]) hw
              (fun hh => absurd hh hff)
          · rw [bindOk] at h
            obtain ⟨r2, -, h⟩ := h
            injection h with h
            injection h with h1 h2
            subst h1
            subst h2
            exact ensure_slot_noop (by simp [fcF, gc]) (by simp [gf]) hw
              (fun hh => absurd hh hff)

theorem presFile_slot {e e2 : Engine} {fid : Nat} (hp : PresFile e e2) (hw : WfF e fid) :
    WfF e2 fid ∧ MzF e2 fid = MzF e fid ∧ hiF e2 fid = hiF e fid :=
  file_slot_congr (by simp [fcF, hp.2]) (by rw [hp.1]) hw

/-- One batch of `take` preserves well-formedness of the root slot, never
increases its measure, and never shrinks its cache. -/
theorem takeBatchSteps_root {rt : LuaRt} {fid : Nat} :
    ∀ (steps : List Id) (e : Engine) (cov batch : Interval) (r : Engine × Interval × Bool),
      Engine.takeBatchSteps rt e cov batch steps = .ok r → WfF e fid →
      WfF r.1 fid ∧ MzF r.1 fid ≤ MzF e fid ∧ hiF e fid ≤ hiF r.1 fid := by
  intro steps
  induction steps with
  | nil =>
    intro e cov batch r h hw
    simp only [Engine.takeBatchSteps] at h
    injection h with h
    subst h
    exact ⟨hw, le_refl _, le_refl _⟩
  | cons step rest ih =>
    intro e cov batch r h hw
    simp only [Engine.takeBatchSteps] at h
    split at h
    · rw [bindOk] at h
      obtain ⟨r0, hef, h⟩ := h
      obtain ⟨hw1, hmz1, hhi1, -⟩ := ensure_file_root hw hef
      split at h
      · injection h with h
        subst h
        exact ⟨hw1, hmz1, hhi1⟩
      · obtain ⟨hw2, hmz2, hhi2⟩ := ih _ _ _ _ h hw1
        exact ⟨hw2, le_trans hmz2 hmz1, le_trans hhi1 hhi2⟩
    · rw [bindOk] at h
      obtain ⟨t, -, h⟩ := h
      split at h
      · exact absurd h (by simp)
      · rw [bindOk] at h
        obtain ⟨e2, hed, h⟩ := h
        obtain ⟨-, hpf⟩ := ensure_distinct_pres hed
        obtain ⟨hw1, hmz1, hhi1⟩ := presFile_slot hpf hw
        obtain ⟨hw2, hmz2, hhi2⟩ := ih _ _ _ _ h hw1
        exact ⟨hw2, by omega, by omega⟩
    · rw [bindOk] at h
      obtain ⟨t, -, h⟩ := h
      split at h
      · exact absurd h (by simp)
      · rw [bindOk] at h
        obtain ⟨e2, hef2, h⟩ := h
        obtain ⟨-, hpf⟩ := ensure_filter_pres hef2
        obtain ⟨hw1, hmz1, hhi1⟩ := presFile_slot hpf hw
        obtain ⟨hw2, hmz2, hhi2⟩ := ih _ _ _ _ h hw1
        exact ⟨hw2, by omega, by omega⟩
    · split at h
      · exact absurd h (by simp)
      · rw [bindOk] at h
        obtain ⟨e2, het, h⟩ := h
        obtain ⟨-, hpf⟩ := ensure_tag_pres het
        obtain ⟨hw1, hmz1, hhi1⟩ := presFile_slot hpf hw
        obtain ⟨hw2, hmz2, hhi2⟩ := ih _ _ _ _ h hw1
        exact ⟨hw2, by omega, by omega⟩

/-- A batch headed by the root `File` step that does not break the outer loop
covered at least one line: the batch start lies strictly below the cache end
afterwards. -/
theorem takeBatchSteps_head {rt : LuaRt} {fid : Nat} {rest : List Id} {e : Engine}
    {cov batch : Interval} {r : Engine × Interval × Bool}
    (h : Engine.takeBatchSteps rt e cov batch (.file fid :: rest) = .ok r)
    (hw : WfF e fid) (hfl : r.2.2 = false) :
    WfF r.1 fid ∧ MzF r.1 fid ≤ MzF e fid ∧ batch.lo < hiF r.1 fid := by
  simp only [Engine.takeBatchSteps] at h
  rw [bindOk] at h
  obtain ⟨r0, hef, h⟩ := h
  obtain ⟨hw1, hmz1, hhi1, hlast⟩ := ensure_file_root hw hef
  split at h
  · injection h with h
    subst h
    simp at hfl
  · rename_i hnz
    obtain ⟨hw2, hmz2, hhi2⟩ := takeBatchSteps_root rest _ _ _ _ h hw1
    have hb : batch.lo < hiF r0.2 fid := by
      refine hlast rfl ?_
      have hne : ¬ r0.1 = 0 := by simpa using hnz
      omega
    exact ⟨hw2, le_trans hmz2 hmz1, lt_of_lt_of_le hb hhi2⟩

/-- The batch loop of `take`, on a plan headed by the root `File` step, never
runs out of fuel once the fuel dominates the measure: each non-breaking batch
raises the next batch start by at least one while the measure never grows, and
a batch starting at or beyond the measure breaks. -/
theorem takeLoop_file_terminates {rt : LuaRt} {fid : Nat} {rest : List Id} {count : Nat} :
    ∀ (fuel : Nat) (e : Engine) (cov : Interval) (ri : RI),
      WfF e fid → 1 ≤ ri.next → 1 ≤ fuel → MzF e fid + 1 ≤ fuel + ri.index →
      Engine.takeLoop rt (.file fid :: rest) count fuel e cov ri ≠ .error .outOfFuel := by
  intro fuel
  induction fuel with
  | zero =>
    intro e cov ri hw hnext hfpos hbound h
    omega
  | succ fuel ih =>
    intro e cov ri hw hnext hfpos hbound h
    simp only [Engine.takeLoop, RI.step] at h
    rw [bindErrE] at h
    rcases h with h | ⟨r, hb, h⟩
    · exact nf_takeBatchSteps rt _ _ _ _ h
    · split at h
      · exact absurd h (by simp)
      · rename_i hfl
        split at h
        · exact absurd h (by simp)
        · rw [bindErrE] at h
          rcases h with h | ⟨c, -, h⟩
          · exact nf_leafCount _ _ h
          · split at h
            · exact absurd h (by simp)
            · have hfl2 : r.2.2 = false := by simpa using hfl
              obtain ⟨hw2, hmz2, hlt⟩ := takeBatchSteps_head hb hw hfl2
              have hlt2 : ri.index < hiF r.1 fid := hlt
              have hle : hiF r.1 fid ≤ MzF r.1 fid := Nat.le_add_right _ _
              refine ih r.1 r.2.1 _ hw2 ?_ ?_ ?_ h
              · show 1 ≤ Nat.min 1024 (ri.next * 2)
                exact Nat.le_min.mpr ⟨by omega, by omega⟩
              · omega
              · show MzF r.1 fid + 1 ≤ fuel + (ri.index + ri.next)
                omega

/-- With a zero batch width (a `Take` of zero lines), the very first batch
covers nothing, `ensure_file` reports a zero count, and the loop breaks. -/
theorem takeLoop_next0 {rt : LuaRt} {fid : Nat} {rest : List Id} {count : Nat}
    {e : Engine} {cov : Interval} {ix fuel : Nat} (hf : 1 ≤ fuel) :
    Engine.takeLoop rt (.file fid :: rest) count fuel e cov ⟨ix, 0⟩ ≠ .error .outOfFuel := by
  obtain ⟨fuel2, rfl⟩ : ∃ k, fuel = k + 1 := ⟨fuel - 1, by omega⟩
  intro h
  have hef : e.ensure_file fid ⟨ix, ix⟩ =
      .ok (0, { e with file_caches := insertM e.file_caches fid (fcF e fid) }) := by
    simp [Engine.ensure_file, fcF, Interval.contains, Interval.is_empty, Interval.len]
  have hbatch : Engine.takeBatchSteps rt e cov ⟨ix, ix + 0⟩ (.file fid :: rest) =
      .ok ({ e with file_caches := insertM e.file_caches fid (fcF e fid) }, cov, true) := by
    simp [Engine.takeBatchSteps, hef, okBind]
  simp only [Engine.takeLoop, RI.step] at h
  rw [bindErrE] at h
  rcases h with h | ⟨r, hb, h⟩
  · exact nf_takeBatchSteps rt _ _ _ _ h
  · rw [hbatch] at hb
    injection hb with hb
    subst hb
    simp at h

/-- C1: for a `Take` whose plan roots at a registered `File`, the batch loop
terminates for every requested count: the fuel standing for the infinite
`ReadIntervals` iterator is never exhausted (and no other part of `take`
consumes fuel), under the slot invariant `WfF` — the cache grows from line 0
and the reader index never exceeds the cached line count. The loop exits
either because the leaf count reaches the request or because `ensure_file`
reports a zero covered count on an exhausted file. -/
theorem take_terminates {e : Engine} {leaf : Id} {p : Plan} {fid : Nat} {rest : List Id}
    (rt : LuaRt) (sh : Sh) (count : Nat)
    (hreg : (getM e.files fid).isSome = true)
    (hplan : e.plan leaf = .ok p)
    (hsteps : p.steps = .file fid :: rest)
    (hw : WfF e fid) :
    e.take rt sh p count ≠ .error .outOfFuel := by
  intro h
  simp only [Engine.take] at h
  rw [bindErrE] at h
  rcases h with h | ⟨r, -, h⟩
  · rw [hsteps] at h
    have hfuel : MzF e fid + 2 ≤ e.takeFuel (.file fid :: rest) := by
      simp only [Engine.takeFuel, MzF, hiF, fcF, remF]
      cases hg : getM e.files fid with
      | none => simp
      | some f =>
        simp only [Option.map_some', Option.getD_some]
        omega
    simp only [RI.new, MAX_BATCH_SIZE] at h
    by_cases hc : count = 0
    · subst hc
      rw [show Nat.min 0 1024 = 0 from rfl] at h
      exact takeLoop_next0 (by omega) h
    · refine takeLoop_file_terminates _ e ⟨0, 0⟩ ⟨0, Nat.min count 1024⟩ hw ?_ ?_ ?_ h
      · show 1 ≤ Nat.min count 1024
        exact Nat.le_min.mpr ⟨by omega, by omega⟩
      · omega
      · show MzF e fid + 1 ≤ e.takeFuel (.file fid :: rest) + 0
        omega
  · try dsimp only at h
    rw [bindErrE] at h
    rcases h with h | ⟨fid2, -, h⟩
    · exact nf_file_id p h
    · try dsimp only at h
      rw [bindErrE] at h
      rcases h with h | ⟨e3, -, h⟩
      · exact nf_ensureTagsGo rt fid2 r.2 _ r.1 h
      · try dsimp only at h
        rw [bindErrE] at h
        rcases h with h | ⟨lines, -, h⟩
        · exact nf_read_lines _ _ _ h
        · try dsimp only at h
          rw [bindErrE] at h
          rcases h with h | ⟨tags, -, h⟩
          · exact nf_readAllTagsGo e3 r.2 _ h
          · try dsimp only at h
            rw [bindErrE] at h
            rcases h with h | ⟨comb1, -, h⟩
            · exact nf_combineGo (fun i => nf_read_filter e3 i) _ _ h
            · try dsimp only at h
              rw [bindErrE] at h
              rcases h with h | ⟨comb, -, h⟩
              · exact nf_combineGo (fun i => nf_read_distinct e3 i) _ _ h
              · try dsimp only at h
                rw [bindErrE] at h
                rcases h with h | ⟨results, -, h⟩
                · exact nf_renderGo _ _ _ _ _ _ h
                · exact absurd h (by simp)

/-- A fresh engine holding one registered two-byte file, for the C1 witness. -/
def eW1 : Engine :=
  { Engine.new with last_id := 1, files := [(1, ⟨strLit "a\n", 0, 0⟩)] }

/-- Closed instance of the C1 theorem: on a one-file engine, `Take(File 1, 5)`
never exhausts the loop fuel. -/
theorem take_terminates_witness :
    (getM eW1.files 1).isSome = true ∧
    Engine.plan eW1 (.file 1) = .ok ⟨[Id.file 1]⟩ ∧ WfF eW1 1 ∧
    Engine.take eW1 rtDet shId ⟨[Id.file 1]⟩ 5 ≠ .error .outOfFuel := by
  have hw : WfF eW1 1 := by
    constructor
    · rfl
    · intro f hf
      have hf2 : some (⟨strLit "a\n", 0, 0⟩ : FileSt) = some f := hf
      injection hf2 with hf2
      subst hf2
      decide
  exact ⟨rfl, rfl, hw,
    @take_terminates eW1 (.file 1) ⟨[Id.file 1]⟩ 1 [] rtDet shId 5 rfl rfl rfl hw⟩

end LogTags
